import Mathlib

/-!
Shallow embedding of `redis_bullmq_explorer/infrastructure_redis_bullmq.py`
(class `RedisBullMQRepository`): the job query engine (`get_jobs`), the job
detail resolver (`get_job_detail`) and the delete operation (`delete_job`),
together with the Python string/list primitives they rely on.

The redis store is modelled as an association list from key names to typed
values (list, sorted set, set, hash or plain string).  The external `json`
and `datetime` libraries are abstracted as an `Oracle` record of string
functions.  Operations that can raise in Python (pipeline hash reads against
a wrongly typed key, the mixed-key sort) return `Option`, with `none`
standing for a raised exception.
-/

/-- ASCII model of Python `str.lower`: map `A`..`Z` to `a`..`z`. -/
def lowerChar (c : Char) : Char :=
  if 'A' ≤ c ∧ c ≤ 'Z' then Char.ofNat (c.toNat + 32) else c

/-- Python `s.lower()` (ASCII model). -/
def pyLower (s : String) : String := ⟨s.data.map lowerChar⟩

/-- Whether the first list is an initial segment of the second. -/
def startsWithB : List Char → List Char → Bool
  | [], _ => true
  | _ :: _, [] => false
  | a :: as, b :: bs => a == b && startsWithB as bs

/-- Contiguous substring test on character lists. -/
def substrAux : List Char → List Char → Bool
  | n, [] => n.isEmpty
  | n, c :: t => startsWithB n (c :: t) || substrAux n t

/-- Python `needle in hay` on strings: contiguous substring test. -/
def pyIn (needle hay : String) : Bool := substrAux needle.data hay.data

/-- Lexicographic (code point) order on character lists, as Python compares
strings. -/
def listCharLe : List Char → List Char → Bool
  | [], _ => true
  | _ :: _, [] => false
  | a :: as, b :: bs => if a < b then true else if b < a then false else listCharLe as bs

/-- Python `a <= b` on strings. -/
def pyStrLe (a b : String) : Bool := listCharLe a.data b.data

/-- Whether a character is an ASCII decimal digit. -/
def isAsciiDigit (c : Char) : Bool := '0' ≤ c && c ≤ '9'

/-- Python `s.isdigit()` (ASCII model): nonempty and all digits. -/
def pyIsdigit (s : String) : Bool := !s.data.isEmpty && s.data.all isAsciiDigit

/-- Numeric value of a list of ASCII digits. -/
def digitsToNat (cs : List Char) : Nat := cs.foldl (fun a c => a * 10 + (c.toNat - 48)) 0

/-- ASCII whitespace stripped by Python `int(str)`. -/
def isPySpace (c : Char) : Bool :=
  c == ' ' || c == '\t' || c == '\n' || c == '\x0d' || c == '\x0b' || c == '\x0c'

/-- Parse a digit run, allowing single underscores between digits, as Python
`int` does; the flag records whether the previous character was a digit. -/
def digitsCore : List Char → Nat → Bool → Option Nat
  | [], acc, lastDigit => if lastDigit then some acc else none
  | c :: t, acc, lastDigit =>
    if isAsciiDigit c then digitsCore t (acc * 10 + (c.toNat - 48)) true
    else if c == '_' then (if lastDigit then digitsCore t acc false else none)
    else none

/-- Python `int(s)` on a string: strip whitespace, optional sign, digits;
`none` models the raised `ValueError`. -/
def pyStrToInt (s : String) : Option Int :=
  let cs := ((s.data.dropWhile isPySpace).reverse.dropWhile isPySpace).reverse
  match cs with
  | '+' :: rest => (digitsCore rest 0 false).map (fun n => (n : Int))
  | '-' :: rest => (digitsCore rest 0 false).map (fun n => -(n : Int))
  | rest => (digitsCore rest 0 false).map (fun n => (n : Int))

/-- Python `s[:n]` on strings. -/
def strTake (s : String) (n : Nat) : String := ⟨s.data.take n⟩

/-- Stable insertion of `x` into a sorted list: `x` goes before the first
element `y` with `le x y`. -/
def insSorted (le : α → α → Bool) (x : α) : List α → List α
  | [] => [x]
  | y :: ys => if le x y then x :: y :: ys else y :: insSorted le x ys

/-- Stable sort (insertion sort), matching the order CPython's stable sort
produces for a total preorder `le`. -/
def stableSort (le : α → α → Bool) : List α → List α
  | [] => []
  | x :: xs => insSorted le x (stableSort le xs)

/-- Python `list.sort(key=..., reverse=rev)`: CPython implements `reverse`
by reversing the list before and after a stable ascending sort. -/
def pySortBy (le : α → α → Bool) (rev : Bool) (xs : List α) : List α :=
  if rev then (stableSort le xs.reverse).reverse else stableSort le xs

/-- Insertion step for a partial comparison; `none` models a `TypeError`
raised while comparing. -/
def insSortedP (le : α → α → Option Bool) (x : α) : List α → Option (List α)
  | [] => some [x]
  | y :: ys =>
    match le x y with
    | none => none
    | some true => some (x :: y :: ys)
    | some false => (insSortedP le x ys).map (fun zs => y :: zs)

/-- Stable sort under a partial comparison; `none` once any two elements
that get compared are incomparable, as Python raises. -/
def stableSortP (le : α → α → Option Bool) : List α → Option (List α)
  | [] => some []
  | x :: xs => (stableSortP le xs).bind (insSortedP le x)

/-- Python `list.sort(key=..., reverse=rev)` for a partial key comparison. -/
def pySortByP (le : α → α → Option Bool) (rev : Bool) (xs : List α) : Option (List α) :=
  if rev then (stableSortP le xs.reverse).map List.reverse else stableSortP le xs

/-- Sort key produced by `lambda x: int(x) if x.isdigit() else x`. -/
inductive PyKey where
  | pint : Int → PyKey
  | pstr : String → PyKey
deriving DecidableEq, Repr

/-- The id sort key of `get_jobs` (line 156). -/
def idSortKey (x : String) : PyKey :=
  if pyIsdigit x then .pint (digitsToNat x.data) else .pstr x

/-- Comparison of Python sort keys: `int` vs `str` raises `TypeError`,
modelled as `none`. -/
def pyKeyLe : PyKey → PyKey → Option Bool
  | .pint a, .pint b => some (decide (a ≤ b))
  | .pstr a, .pstr b => some (pyStrLe a b)
  | _, _ => none

/-- Clamp one slice bound to the list length, as Python slicing does. -/
def sliceIndex (n : Nat) (i : Int) : Nat :=
  if i < 0 then (i + n).toNat else min i.toNat n

/-- Python `xs[start:stop]`. -/
def pySlice (xs : List α) (start stop : Int) : List α :=
  (xs.take (sliceIndex xs.length stop)).drop (sliceIndex xs.length start)

/-- A redis value: list, sorted set (kept in rank order, as `zrange`
returns it), set, hash, or plain string. -/
inductive RVal where
  | rlist : List String → RVal
  | rzset : List (String × Int) → RVal
  | rset : List String → RVal
  | rhash : List (String × String) → RVal
  | rstr : String → RVal
deriving DecidableEq, Repr

/-- The keyspace of the store: an association list from key names to values. -/
abbrev Store := List (String × RVal)

/-- Value stored at a key, if any. -/
def Store.get (st : Store) (k : String) : Option RVal :=
  (st.find? (fun p => p.1 == k)).map (fun p => p.2)

/-- Rewrite the value stored at a key in place. -/
def Store.updateKey (st : Store) (k : String) (f : RVal → RVal) : Store :=
  st.map (fun p => if p.1 == k then (p.1, f p.2) else p)

/-- Redis `DEL key`. -/
def Store.del (st : Store) (k : String) : Store := st.filter (fun p => p.1 != k)

/-- Redis `TYPE key` reply. -/
def typeOf (st : Store) (k : String) : String :=
  match Store.get st k with
  | some (.rlist _) => "list"
  | some (.rzset _) => "zset"
  | some (.rset _) => "set"
  | some (.rhash _) => "hash"
  | some (.rstr _) => "string"
  | none => "none"

/-- Embedding of `_collect_ids_from_key` (lines 64-72): type-dispatched
read of one state collection; any other type yields the empty list. -/
def collectIdsFromKey (st : Store) (key : String) : List String :=
  match Store.get st key with
  | some (.rlist xs) => xs
  | some (.rzset xs) => xs.map (fun p => p.1)
  | some (.rset xs) => xs
  | _ => []

/-- Redis `HGET key field` as issued inside a pipeline: outer `none` models
the `WRONGTYPE` error raised by `execute`, inner `none` a missing field or
key. -/
def hgetE (st : Store) (k field : String) : Option (Option String) :=
  match Store.get st k with
  | none => some none
  | some (.rhash fs) => some ((fs.find? (fun p => p.1 == field)).map (fun p => p.2))
  | some _ => none

/-- Redis `HGETALL key` inside a pipeline: `none` models `WRONGTYPE`, a
missing key yields the empty hash. -/
def hgetallE (st : Store) (k : String) : Option (List (String × String)) :=
  match Store.get st k with
  | none => some []
  | some (.rhash fs) => some fs
  | some _ => none

/-- Python `h.get(field, dflt)` on a fetched hash. -/
def hashGetD (fs : List (String × String)) (field dflt : String) : String :=
  (((fs.find? (fun p => p.1 == field)).map (fun p => p.2)).getD dflt)

/-- Sequence fallible per-element fetches, as one pipeline `execute`: the
whole batch fails if any command fails. -/
def optMapM (f : α → Option β) : List α → Option (List β)
  | [] => some []
  | x :: xs => (f x).bind (fun y => (optMapM f xs).map (fun ys => y :: ys))

/-- The five fixed lifecycle states, in the iteration order of the
`state_keys` dict (lines 78-84). -/
def stateNames : List String := ["wait", "active", "delayed", "completed", "failed"]

/-- Key of one state collection. -/
def stateKey (base s : String) : String := base ++ ":" ++ s

/-- The `base` string `prefix:queue` of line 77. -/
def baseOf (pfx queue : String) : String := pfx ++ ":" ++ queue

/-- One `jobs_map[jid_str].add(state)` step (lines 93-97) on an
insertion-ordered association map. -/
def addState (m : List (String × List String)) (jid stName : String) :
    List (String × List String) :=
  match m with
  | [] => [(jid, [stName])]
  | (j, ss) :: rest =>
    if j == jid then (j, if ss.contains stName then ss else ss ++ [stName]) :: rest
    else (j, ss) :: addState rest jid stName

/-- The merged `jobs_map : id -> set of states` of lines 86-97, with Python
dict insertion order made explicit. -/
def buildJobsMap (st : Store) (base : String) : List (String × List String) :=
  stateNames.foldl
    (fun m stName =>
      (collectIdsFromKey st (stateKey base stName)).foldl
        (fun m jid => addState m jid stName) m)
    []

/-- The `counts` dict of lines 88-92: raw member count per state. -/
def rawCounts (st : Store) (base : String) : List (String × Nat) :=
  stateNames.map (fun s => (s, (collectIdsFromKey st (stateKey base s)).length))

/-- States recorded for an id in the merged map (empty if absent). -/
def statesOf (m : List (String × List String)) (jid : String) : List String :=
  (((m.find? (fun p => p.1 == jid)).map (fun p => p.2)).getD [])

/-- Python `",".join(parts)`. -/
def joinComma : List String → String
  | [] => ""
  | [s] => s
  | s :: rest => s ++ "," ++ joinComma rest

/-- Python `",".join(sorted(states))` (line 194). -/
def stateString (ss : List String) : String := joinComma (stableSort pyStrLe ss)

/-- The `Job` dataclass of `domain_models.py`. -/
structure Job where
  id : String
  name : String
  state : String
  data_preview : String
  timestamp : String
deriving DecidableEq, Repr

/-- Abstraction of the external `json` and `datetime` libraries:
`jsonOk s` is whether `json.loads(s)` succeeds, `jsonCompact` is
`json.dumps(json.loads(s), ensure_ascii=False)`, `jsonPretty` the same with
`indent=2`, and `formatTs n` is
`datetime.fromtimestamp(n / 1000.0).strftime("%Y-%m-%d %H:%M:%S")` for an
epoch-milliseconds integer (library-level range errors are out of scope and
the formatter is modelled as total). -/
structure Oracle where
  jsonOk : String → Bool
  jsonCompact : String → String
  jsonPretty : String → String
  formatTs : Int → String

/-- The `data_preview` computation of lines 187-193. -/
def dataPreview (o : Oracle) (data_raw : String) : String :=
  if data_raw == "" then ""
  else if o.jsonOk data_raw then strTake (o.jsonCompact data_raw) 140
  else strTake data_raw 140

/-- The `timestamp_str` computation of lines 178-185: `-` for an empty or
absent field, the formatted date-time when the field parses as an integer,
the raw string otherwise. -/
def timestampString (o : Oracle) (timestamp_raw : String) : String :=
  if timestamp_raw == "" then "-"
  else
    match pyStrToInt timestamp_raw with
    | some n => o.formatTs n
    | none => timestamp_raw

/-- The `ts_val` computation of lines 142-147: malformed or absent
timestamp becomes 0. -/
def tsParse (r : Option String) : Int :=
  match r with
  | none => 0
  | some raw =>
    if raw == "" then 0
    else match pyStrToInt raw with
         | some n => n
         | none => 0

/-- Steps 1-3 of `get_jobs` (lines 86-107): the id universe, narrowed by
the status filter when one is given. -/
def idsToSearch (st : Store) (base status_filter : String) : List String :=
  let jm := buildJobsMap st base
  let all_ids := jm.map (fun p => p.1)
  if status_filter == "" then all_ids
  else all_ids.filter (fun jid => (statesOf jm jid).contains status_filter)

/-- Step 4 of `get_jobs` (lines 109-126): the search filter over the
status-narrowed ids, with the batched `data` fetch. -/
def filteredIdsE (st : Store) (base search_term status_filter : String) :
    Option (List String) :=
  let its := idsToSearch st base status_filter
  if search_term == "" then some its
  else
    let search_lower := pyLower search_term
    (optMapM (fun jid => hgetE st (base ++ ":" ++ jid) "data") its).map
      (fun data_results =>
        (its.zip data_results).filterMap (fun p =>
          let data_str := p.2.getD ""
          if pyIn search_lower (pyLower p.1) || pyIn search_lower (pyLower data_str)
          then some p.1 else none))

/-- Step 5 of `get_jobs` (lines 131-156): the global sort, by fetched
timestamp or by the numeric-or-string id key. -/
def sortedIdsE (st : Store) (base sort_by : String) (descending : Bool)
    (filtered_ids : List String) : Option (List String) :=
  if sort_by == "timestamp" then
    (optMapM (fun jid => hgetE st (base ++ ":" ++ jid) "timestamp") filtered_ids).map
      (fun ts_results =>
        let ids_with_ts := (filtered_ids.zip ts_results).map (fun p => (p.1, tsParse p.2))
        (pySortBy (fun a b => decide (a.2 ≤ b.2)) descending ids_with_ts).map (fun p => p.1))
  else
    pySortByP (fun a b => pyKeyLe (idSortKey a) (idSortKey b)) descending filtered_ids

/-- Hydration of one page row (lines 174-203). -/
def hydrateJob (o : Oracle) (jm : List (String × List String)) (jid : String)
    (h : List (String × String)) : Job :=
  { id := jid
    name := hashGetD h "name" ""
    state := stateString (statesOf jm jid)
    data_preview := dataPreview o (hashGetD h "data" "")
    timestamp := timestampString o (hashGetD h "timestamp" "") }

/-- Step 7 of `get_jobs` (lines 168-203): batched full-hash fetch for the
page ids, then per-row hydration. -/
def hydrateE (o : Oracle) (st : Store) (base : String)
    (jm : List (String × List String)) (page_ids : List String) : Option (List Job) :=
  (optMapM (fun jid => hgetallE st (base ++ ":" ++ jid)) page_ids).map
    (fun job_details => (page_ids.zip job_details).map (fun p => hydrateJob o jm p.1 p.2))

/-- Embedding of `RedisBullMQRepository.get_jobs` (lines 74-205).
`connected` models `self.r is not None`; the result is `none` when the
Python call raises. -/
def get_jobs (o : Oracle) (connected : Bool) (st : Store) (pfx queue : String)
    (page page_size : Int) (search_term status_filter sort_by : String)
    (descending : Bool) : Option (List Job × Nat × List (String × Nat)) :=
  if !connected then some ([], 0, [])
  else
    let base := baseOf pfx queue
    let jm := buildJobsMap st base
    let counts := rawCounts st base
    (filteredIdsE st base search_term status_filter).bind (fun filtered_ids =>
      let total_count := filtered_ids.length
      (sortedIdsE st base sort_by descending filtered_ids).bind (fun sorted_ids =>
        let start := (page - 1) * page_size
        let page_ids := pySlice sorted_ids start (start + page_size)
        if page_ids.isEmpty then some ([], total_count, counts)
        else (hydrateE o st base jm page_ids).map (fun jobs => (jobs, total_count, counts))))

/-- Membership probe of lines 230-240: `lpos` for a list, `zscore` for a
sorted set, `sismember` for a set, nothing otherwise. -/
def memberProbe (st : Store) (key job_id : String) : Bool :=
  match Store.get st key with
  | some (.rlist xs) => xs.contains job_id
  | some (.rzset xs) => ((xs.find? (fun p => p.1 == job_id)).isSome)
  | some (.rset xs) => xs.contains job_id
  | _ => false

/-- Embedding of `RedisBullMQRepository.get_job_detail` (lines 207-248); the
returned dict is an association list in the construction order of the
source.  A disconnected repository returns the empty dict; `none` models a
raised error. -/
def get_job_detail (o : Oracle) (connected : Bool) (st : Store)
    (pfx queue job_id : String) : Option (List (String × String)) :=
  if !connected then some []
  else
    let base := baseOf pfx queue
    let job_key := base ++ ":" ++ job_id
    (hgetallE st job_key).map (fun h =>
      let nm := hashGetD h "name" ""
      let data_raw := hashGetD h "data" ""
      let data_json :=
        if data_raw == "" then data_raw
        else if o.jsonOk data_raw then o.jsonPretty data_raw
        else data_raw
      let states := stateNames.filter (fun s => memberProbe st (stateKey base s) job_id)
      [("id", job_id), ("name", nm), ("state", joinComma (stableSort pyStrLe states)),
       ("data_raw", data_raw), ("data_json", data_json)])

/-- Type-dispatched removal of lines 260-266: `lrem key 0 id` removes every
occurrence from a list, `zrem`/`srem` remove the member; other types are
untouched. -/
def removeMember (v : RVal) (job_id : String) : RVal :=
  match v with
  | .rlist xs => .rlist (xs.filter (fun x => x != job_id))
  | .rzset xs => .rzset (xs.filter (fun p => p.1 != job_id))
  | .rset xs => .rset (xs.filter (fun x => x != job_id))
  | v => v

/-- Embedding of `RedisBullMQRepository.delete_job` (lines 250-268): remove
the id from each state collection, then delete the job hash and its logs
key.  A disconnected repository returns the store unchanged. -/
def delete_job (connected : Bool) (st : Store) (pfx queue job_id : String) : Store :=
  if !connected then st
  else
    let base := baseOf pfx queue
    let job_key := base ++ ":" ++ job_id
    let logs_key := base ++ ":" ++ job_id ++ ":logs"
    let st1 := stateNames.foldl
      (fun s stName => Store.updateKey s (stateKey base stName) (fun v => removeMember v job_id)) st
    Store.del (Store.del st1 job_key) logs_key

/-- A concrete oracle instance used by witnesses and counterexamples. -/
def oracle0 : Oracle :=
  { jsonOk := fun _ => false
    jsonCompact := fun s => s
    jsonPretty := fun s => s
    formatTs := fun _ => "" }

/-! ### Generic lemmas: batched fetches -/

theorem optMapM_eq_some_map {α β : Type} {f : α → Option β} {g : α → β} :
    ∀ {l : List α}, (∀ x ∈ l, f x = some (g x)) → optMapM f l = some (l.map g) := by
  intro l
  induction l with
  | nil => intro _; rfl
  | cons x xs ih =>
    intro h
    have hx := h x (by simp)
    have hxs := ih (fun y hy => h y (by simp [hy]))
    simp [optMapM, hx, hxs]

theorem optMapM_zip {α β : Type} {f : α → Option β} :
    ∀ {l : List α} {ys : List β}, optMapM f l = some ys →
      ys.length = l.length ∧ ∀ p ∈ l.zip ys, f p.1 = some p.2 := by
  intro l
  induction l with
  | nil =>
    intro ys h
    simp [optMapM] at h
    simp [← h]
  | cons x xs ih =>
    intro ys h
    simp only [optMapM, Option.bind_eq_some, Option.map_eq_some'] at h
    obtain ⟨y, hy, ys2, hys2, rfl⟩ := h
    obtain ⟨hlen, hmem⟩ := ih hys2
    refine ⟨by simp [hlen], ?_⟩
    intro p hp
    simp only [List.zip_cons_cons, List.mem_cons] at hp
    rcases hp with rfl | hp
    · exact hy
    · exact hmem p hp

/-! ### Generic lemmas: stable sort -/

theorem insSorted_perm {α : Type} (le : α → α → Bool) (x : α) :
    ∀ (ys : List α), (insSorted le x ys).Perm (x :: ys) := by
  intro ys
  induction ys with
  | nil => simp [insSorted]
  | cons y ys ih =>
    by_cases h : le x y
    · simp [insSorted, h]
    · simp only [insSorted]
      rw [if_neg h]
      exact (List.Perm.cons y ih).trans (List.Perm.swap x y ys)

theorem stableSort_perm {α : Type} (le : α → α → Bool) :
    ∀ (l : List α), (stableSort le l).Perm l := by
  intro l
  induction l with
  | nil => simp [stableSort]
  | cons x xs ih =>
    exact ((insSorted_perm le x (stableSort le xs)).trans (List.Perm.cons x ih))

theorem mem_stableSort {α : Type} {le : α → α → Bool} {a : α} {l : List α} :
    a ∈ stableSort le l ↔ a ∈ l := (stableSort_perm le l).mem_iff

theorem length_stableSort {α : Type} (le : α → α → Bool) (l : List α) :
    (stableSort le l).length = l.length := (stableSort_perm le l).length_eq

theorem mem_insSorted {α : Type} {le : α → α → Bool} {x a : α} {ys : List α} :
    a ∈ insSorted le x ys ↔ a = x ∨ a ∈ ys := by
  rw [(insSorted_perm le x ys).mem_iff]
  simp

theorem insSorted_pairwise {α : Type} {le : α → α → Bool}
    (htot : ∀ a b, le a b = true ∨ le b a = true)
    (htrans : ∀ a b c, le a b = true → le b c = true → le a c = true)
    {x : α} : ∀ {ys : List α}, ys.Pairwise (fun a b => le a b = true) →
      (insSorted le x ys).Pairwise (fun a b => le a b = true) := by
  intro ys
  induction ys with
  | nil => intro _; simp [insSorted]
  | cons y ys ih =>
    intro hp
    rw [List.pairwise_cons] at hp
    obtain ⟨hy, hys⟩ := hp
    by_cases h : le x y
    · simp only [insSorted]
      rw [if_pos h, List.pairwise_cons]
      refine ⟨?_, by rw [List.pairwise_cons]; exact ⟨hy, hys⟩⟩
      intro b hb
      rcases List.mem_cons.mp hb with hby | hb
      · rw [hby]; exact h
      · exact htrans x y b h (hy b hb)
    · simp only [insSorted]
      rw [if_neg h, List.pairwise_cons]
      refine ⟨?_, ih hys⟩
      intro b hb
      rcases mem_insSorted.mp hb with hbx | hb
      · rw [hbx]
        rcases htot x y with hxy | hyx
        · exact absurd hxy h
        · exact hyx
      · exact hy b hb

theorem stableSort_pairwise {α : Type} {le : α → α → Bool}
    (htot : ∀ a b, le a b = true ∨ le b a = true)
    (htrans : ∀ a b c, le a b = true → le b c = true → le a c = true)
    (l : List α) : (stableSort le l).Pairwise (fun a b => le a b = true) := by
  induction l with
  | nil => simp [stableSort]
  | cons x xs ih => exact insSorted_pairwise htot htrans ih

theorem eq_of_perm_of_pairwise {α : Type} {R : α → α → Prop} :
    ∀ {l₁ l₂ : List α}, l₁.Perm l₂ → l₁.Pairwise R → l₂.Pairwise R →
      (∀ a ∈ l₁, ∀ b ∈ l₁, R a b → R b a → a = b) → l₁ = l₂ := by
  intro l₁
  induction l₁ with
  | nil => intro l₂ hp _ _ _; simpa using hp.symm
  | cons a t₁ ih =>
    intro l₂ hp h₁ h₂ hanti
    cases l₂ with
    | nil => exact absurd hp.symm (by simp)
    | cons b t₂ =>
      have hab : a = b := by
        by_contra hne
        have ha2 : a ∈ b :: t₂ := hp.mem_iff.mp (by simp)
        have hat2 : a ∈ t₂ := by
          rcases List.mem_cons.mp ha2 with h | h
          · exact absurd h hne
          · exact h
        have hb1 : b ∈ a :: t₁ := hp.mem_iff.mpr (by simp)
        have hbt1 : b ∈ t₁ := by
          rcases List.mem_cons.mp hb1 with h | h
          · exact absurd h.symm hne
          · exact h
        have hRab : R a b := (List.pairwise_cons.mp h₁).1 b hbt1
        have hRba : R b a := (List.pairwise_cons.mp h₂).1 a hat2
        exact hne (hanti a (by simp) b (by simp [hbt1]) hRab hRba)
      subst hab
      have ht : t₁.Perm t₂ := hp.cons_inv
      have := ih ht (List.pairwise_cons.mp h₁).2 (List.pairwise_cons.mp h₂).2
        (fun x hx y hy => hanti x (by simp [hx]) y (by simp [hy]))
      rw [this]

/-! ### Generic lemmas: partial-comparison sort -/

theorem insSortedP_length {α : Type} {le : α → α → Option Bool} {x : α} :
    ∀ {ys zs : List α}, insSortedP le x ys = some zs → zs.length = ys.length + 1 := by
  intro ys
  induction ys with
  | nil => intro zs h; simp [insSortedP] at h; simp [← h]
  | cons y ys ih =>
    intro zs h
    simp only [insSortedP] at h
    match hc : le x y with
    | none => rw [hc] at h; exact absurd h (by simp)
    | some true =>
      rw [hc] at h
      simp at h
      simp [← h]
    | some false =>
      rw [hc] at h
      simp only [Option.map_eq_some'] at h
      obtain ⟨zs2, hzs2, rfl⟩ := h
      simp [ih hzs2]

theorem stableSortP_length {α : Type} {le : α → α → Option Bool} :
    ∀ {l out : List α}, stableSortP le l = some out → out.length = l.length := by
  intro l
  induction l with
  | nil => intro out h; simp [stableSortP] at h; simp [← h]
  | cons x xs ih =>
    intro out h
    simp only [stableSortP, Option.bind_eq_some] at h
    obtain ⟨s, hs, hins⟩ := h
    rw [insSortedP_length hins, ih hs, List.length_cons]

theorem mem_insSortedP {α : Type} {le : α → α → Option Bool} {x a : α} :
    ∀ {ys zs : List α}, insSortedP le x ys = some zs → a ∈ zs → a = x ∨ a ∈ ys := by
  intro ys
  induction ys with
  | nil =>
    intro zs h ha
    simp [insSortedP] at h
    rw [← h] at ha
    simp at ha
    exact Or.inl ha
  | cons y ys ih =>
    intro zs h ha
    simp only [insSortedP] at h
    match hc : le x y with
    | none => rw [hc] at h; exact absurd h (by simp)
    | some true =>
      rw [hc] at h
      simp at h
      rw [← h] at ha
      rcases List.mem_cons.mp ha with h1 | h1
      · exact Or.inl h1
      · exact Or.inr h1
    | some false =>
      rw [hc] at h
      simp only [Option.map_eq_some'] at h
      obtain ⟨zs2, hzs2, rfl⟩ := h
      rcases List.mem_cons.mp ha with h1 | h1
      · exact Or.inr (by simp [h1])
      · rcases ih hzs2 h1 with h2 | h2
        · exact Or.inl h2
        · exact Or.inr (by simp [h2])

theorem mem_stableSortP {α : Type} {le : α → α → Option Bool} {a : α} :
    ∀ {l out : List α}, stableSortP le l = some out → a ∈ out → a ∈ l := by
  intro l
  induction l with
  | nil => intro out h ha; simp [stableSortP] at h; subst h; exact ha
  | cons x xs ih =>
    intro out h ha
    simp only [stableSortP, Option.bind_eq_some] at h
    obtain ⟨s, hs, hins⟩ := h
    rcases mem_insSortedP hins ha with h1 | h1
    · simp [h1]
    · simp [ih hs h1]

theorem insSortedP_eq_some {α : Type} {leP : α → α → Option Bool} {le : α → α → Bool} {x : α} :
    ∀ {ys : List α}, (∀ y ∈ ys, leP x y = some (le x y)) →
      insSortedP leP x ys = some (insSorted le x ys) := by
  intro ys
  induction ys with
  | nil => intro _; rfl
  | cons y ys ih =>
    intro hc
    have hy := hc y (by simp)
    simp only [insSortedP, insSorted, hy]
    by_cases h : le x y
    · rw [h]; simp [h]
    · have hb : le x y = false := by simp [h]
      rw [hb]
      simp only [if_false, Bool.false_eq_true]
      rw [ih (fun z hz => hc z (by simp [hz]))]
      rfl

theorem stableSortP_eq_some {α : Type} {leP : α → α → Option Bool} {le : α → α → Bool} :
    ∀ {l : List α}, (∀ x ∈ l, ∀ y ∈ l, leP x y = some (le x y)) →
      stableSortP leP l = some (stableSort le l) := by
  intro l
  induction l with
  | nil => intro _; rfl
  | cons x xs ih =>
    intro hc
    have hs : stableSortP leP xs = some (stableSort le xs) :=
      ih (fun a ha b hb => hc a (by simp [ha]) b (by simp [hb]))
    simp only [stableSortP, stableSort, hs, Option.some_bind]
    exact insSortedP_eq_some (fun y hy =>
      hc x (by simp) y (by simp [mem_stableSort.mp hy]))

theorem stableSortP_none_of_mixed {α : Type} {le : α → α → Option Bool} {P : α → Bool}
    (hinc : ∀ x y, ¬ P x = P y → le x y = none) :
    ∀ {l : List α} {a b : α}, a ∈ l → b ∈ l → P a = true → P b = false →
      stableSortP le l = none := by
  intro l
  induction l with
  | nil => intro a b ha _ _ _; exact absurd ha (by simp)
  | cons x xs ih =>
    intro a b ha hb hPa hPb
    by_cases hmix : (∃ c ∈ xs, P c = true) ∧ (∃ d ∈ xs, P d = false)
    · obtain ⟨⟨c, hc, hPc⟩, ⟨d, hd, hPd⟩⟩ := hmix
      simp only [stableSortP, ih hc hd hPc hPd, Option.none_bind]
    · -- the tail is homogeneous, so the head has the other polarity and the
      -- insertion of the head fails on the first comparison
      match hs : stableSortP le xs with
      | none => simp only [stableSortP, hs, Option.none_bind]
      | some s =>
        simp only [stableSortP, hs, Option.some_bind]
        have hxs_ne : xs ≠ [] := by
          intro hnil
          subst hnil
          have ha2 : a = x := by simpa using ha
          have hb2 : b = x := by simpa using hb
          rw [ha2] at hPa
          rw [hb2] at hPb
          rw [hPa] at hPb
          exact absurd hPb (by simp)
        have hslen : s.length = xs.length := stableSortP_length hs
        cases s with
        | nil =>
          exact absurd (List.eq_nil_of_length_eq_zero hslen.symm) hxs_ne
        | cons z s2 =>
          have hz_xs : z ∈ xs := mem_stableSortP hs (by simp)
          have hPxz : ¬ P x = P z := by
            intro hEq
            apply hmix
            cases hPx : P x with
            | true =>
              have hbxs : b ∈ xs := by
                rcases List.mem_cons.mp hb with h1 | h1
                · rw [h1, hPx] at hPb; exact absurd hPb (by simp)
                · exact h1
              exact ⟨⟨z, hz_xs, by rw [← hEq, hPx]⟩, ⟨b, hbxs, hPb⟩⟩
            | false =>
              have haxs : a ∈ xs := by
                rcases List.mem_cons.mp ha with h1 | h1
                · rw [h1, hPx] at hPa; exact absurd hPa (by simp)
                · exact h1
              exact ⟨⟨a, haxs, hPa⟩, ⟨z, hz_xs, by rw [← hEq, hPx]⟩⟩
          simp only [insSortedP, hinc x z hPxz]

theorem pySortByP_eq_some {α : Type} {leP : α → α → Option Bool} {le : α → α → Bool}
    (rev : Bool) {l : List α} (hc : ∀ x ∈ l, ∀ y ∈ l, leP x y = some (le x y)) :
    pySortByP leP rev l = some (pySortBy le rev l) := by
  cases rev with
  | false =>
    simp only [pySortByP, pySortBy, if_false, Bool.false_eq_true]
    exact stableSortP_eq_some hc
  | true =>
    simp only [pySortByP, pySortBy, if_true]
    rw [stableSortP_eq_some (fun x hx y hy =>
      hc x (List.mem_reverse.mp hx) y (List.mem_reverse.mp hy))]
    rfl

theorem pySortByP_none_of_mixed {α : Type} {le : α → α → Option Bool} {P : α → Bool}
    (hinc : ∀ x y, ¬ P x = P y → le x y = none)
    (rev : Bool) {l : List α} {a b : α} (ha : a ∈ l) (hb : b ∈ l)
    (hPa : P a = true) (hPb : P b = false) : pySortByP le rev l = none := by
  cases rev with
  | false =>
    simp only [pySortByP, if_false, Bool.false_eq_true]
    exact stableSortP_none_of_mixed hinc ha hb hPa hPb
  | true =>
    simp only [pySortByP, if_true]
    rw [stableSortP_none_of_mixed hinc (List.mem_reverse.mpr ha)
      (List.mem_reverse.mpr hb) hPa hPb]
    rfl

/-! ### Generic lemmas: Python slicing -/

theorem pySlice_eq_nil {α : Type} {xs : List α} {start stop : Int}
    (h0 : 0 ≤ start) (hlen : (xs.length : Int) ≤ start) : pySlice xs start stop = [] := by
  have hidx : sliceIndex xs.length start = xs.length := by
    simp only [sliceIndex, if_neg (by omega : ¬ start < 0)]
    omega
  simp only [pySlice, hidx]
  exact List.drop_eq_nil_of_le (by simp [List.length_take])

theorem mem_pySlice {α : Type} {xs : List α} {start stop : Int} {a : α}
    (h : a ∈ pySlice xs start stop) : a ∈ xs :=
  List.mem_of_mem_take (List.mem_of_mem_drop h)

/-! ### Generic lemmas: the string order -/

theorem listCharLe_total : ∀ a b : List Char, listCharLe a b = true ∨ listCharLe b a = true := by
  intro a
  induction a with
  | nil => intro b; exact Or.inl rfl
  | cons x xs ih =>
    intro b
    cases b with
    | nil => exact Or.inr rfl
    | cons y ys =>
      by_cases hxy : x < y
      · exact Or.inl (by simp [listCharLe, hxy])
      · by_cases hyx : y < x
        · exact Or.inr (by simp [listCharLe, hyx])
        · rcases ih ys with h | h
          · exact Or.inl (by simp [listCharLe, hxy, hyx, h])
          · exact Or.inr (by simp [listCharLe, hxy, hyx, h])

theorem listCharLe_trans :
    ∀ a b c : List Char, listCharLe a b = true → listCharLe b c = true →
      listCharLe a c = true := by
  intro a
  induction a with
  | nil => intro b c _ _; rfl
  | cons x xs ih =>
    intro b c hab hbc
    cases b with
    | nil => exact absurd hab (by simp [listCharLe])
    | cons y ys =>
      cases c with
      | nil => exact absurd hbc (by simp [listCharLe])
      | cons z zs =>
        simp only [listCharLe] at hab hbc ⊢
        by_cases hxy : x < y
        · by_cases hyz : y < z
          · rw [if_pos (lt_trans hxy hyz)]
          · by_cases hzy : z < y
            · rw [if_pos hxy] at hab
              by_cases hxz : x < z
              · rw [if_pos hxz]
              · rw [if_pos hzy, if_neg (lt_asymm hzy)] at hbc
                exact absurd hbc (by simp)
            · have hyz2 : y = z := le_antisymm (not_lt.mp hzy) (not_lt.mp hyz)
              rw [if_pos (hyz2 ▸ hxy)]
        · by_cases hyx : y < x
          · rw [if_neg hxy, if_pos hyx] at hab
            exact absurd hab (by simp)
          · have hxy2 : x = y := le_antisymm (not_lt.mp hyx) (not_lt.mp hxy)
            subst hxy2
            rw [if_neg (lt_irrefl x), if_neg (lt_irrefl x)] at hab
            by_cases hyz : x < z
            · rw [if_pos hyz]
            · by_cases hzy : z < x
              · rw [if_pos hzy] at hbc
                rw [if_neg hyz] at hbc
                exact absurd hbc (by simp)
              · rw [if_neg hyz, if_neg hzy] at hbc ⊢
                exact ih ys zs hab hbc

theorem listCharLe_antisymm :
    ∀ a b : List Char, listCharLe a b = true → listCharLe b a = true → a = b := by
  intro a
  induction a with
  | nil =>
    intro b _ hba
    cases b with
    | nil => rfl
    | cons y ys => exact absurd hba (by simp [listCharLe])
  | cons x xs ih =>
    intro b hab hba
    cases b with
    | nil => exact absurd hab (by simp [listCharLe])
    | cons y ys =>
      simp only [listCharLe] at hab hba
      by_cases hxy : x < y
      · rw [if_neg (lt_asymm hxy), if_pos hxy] at hba
        exact absurd hba (by simp)
      · by_cases hyx : y < x
        · rw [if_neg hxy, if_pos hyx] at hab
          exact absurd hab (by simp)
        · have hxy2 : x = y := le_antisymm (not_lt.mp hyx) (not_lt.mp hxy)
          subst hxy2
          rw [if_neg (lt_irrefl x), if_neg (lt_irrefl x)] at hab hba
          rw [ih ys hab hba]

theorem pyStrLe_total (a b : String) : pyStrLe a b = true ∨ pyStrLe b a = true :=
  listCharLe_total a.data b.data

theorem pyStrLe_trans (a b c : String) :
    pyStrLe a b = true → pyStrLe b c = true → pyStrLe a c = true :=
  listCharLe_trans a.data b.data c.data

theorem pyStrLe_antisymm (a b : String) :
    pyStrLe a b = true → pyStrLe b a = true → a = b := by
  intro h1 h2
  exact String.ext (listCharLe_antisymm a.data b.data h1 h2)

/-! ### Generic lemmas: sorting pairs by their second component -/

theorem insSorted_pair {α β : Type} (le : β → β → Bool) (g : α → β) (x : α) :
    ∀ (ys : List α),
      insSorted (fun p q : α × β => le p.2 q.2) (x, g x) (ys.map (fun a => (a, g a)))
        = (insSorted (fun a b => le (g a) (g b)) x ys).map (fun a => (a, g a)) := by
  intro ys
  induction ys with
  | nil => rfl
  | cons y ys ih =>
    simp only [List.map_cons, insSorted]
    by_cases h : le (g x) (g y)
    · rw [if_pos h, if_pos h]
      rfl
    · rw [if_neg h, if_neg h, List.map_cons, ih]

theorem stableSort_pair {α β : Type} (le : β → β → Bool) (g : α → β) :
    ∀ (l : List α),
      stableSort (fun p q : α × β => le p.2 q.2) (l.map (fun a => (a, g a)))
        = (stableSort (fun a b => le (g a) (g b)) l).map (fun a => (a, g a)) := by
  intro l
  induction l with
  | nil => rfl
  | cons x xs ih =>
    simp only [List.map_cons, stableSort, ih]
    exact insSorted_pair le g x (stableSort (fun a b => le (g a) (g b)) xs)

theorem pySortBy_pair {α β : Type} (le : β → β → Bool) (g : α → β) (rev : Bool) (l : List α) :
    (pySortBy (fun p q : α × β => le p.2 q.2) rev (l.map (fun a => (a, g a)))).map
        (fun p => p.1)
      = pySortBy (fun a b => le (g a) (g b)) rev l := by
  cases rev with
  | false =>
    simp only [pySortBy, if_false, Bool.false_eq_true, stableSort_pair]
    rw [List.map_map]
    exact List.map_id ..
  | true =>
    simp only [pySortBy, if_true, ← List.map_reverse, stableSort_pair]
    rw [List.map_reverse, List.map_reverse, List.map_map]
    rw [show ((fun p : α × β => p.1) ∘ fun a => (a, g a)) = id from rfl, List.map_id]

/-! ### Store lemmas -/

theorem Store.get_cons (p : String × RVal) (st : Store) (k : String) :
    Store.get (p :: st) k = if p.1 = k then some p.2 else Store.get st k := by
  by_cases h : p.1 = k
  · simp [Store.get, List.find?, h]
  · simp [Store.get, List.find?, show (p.1 == k) = false by simpa using h, h]

theorem Store.updateKey_cons (p : String × RVal) (st : Store) (k : String) (f : RVal → RVal) :
    Store.updateKey (p :: st) k f
      = (if p.1 = k then (p.1, f p.2) else p) :: Store.updateKey st k f := by
  by_cases h : p.1 = k
  · simp [Store.updateKey, h]
  · simp [Store.updateKey, show (p.1 == k) = false by simpa using h, h]

theorem Store.del_cons (p : String × RVal) (st : Store) (k : String) :
    Store.del (p :: st) k
      = if p.1 = k then Store.del st k else p :: Store.del st k := by
  by_cases h : p.1 = k
  · simp [Store.del, List.filter, show (p.1 != k) = false by simp [h], h]
  · simp [Store.del, List.filter, show (p.1 != k) = true by simpa using h, h]

theorem Store.get_updateKey_self (st : Store) (k : String) (f : RVal → RVal) :
    Store.get (Store.updateKey st k f) k = (Store.get st k).map f := by
  induction st with
  | nil => rfl
  | cons p st ih =>
    rw [Store.updateKey_cons]
    by_cases h : p.1 = k
    · rw [if_pos h, Store.get_cons, Store.get_cons]
      simp [h]
    · rw [if_neg h, Store.get_cons, Store.get_cons, if_neg h, if_neg h]
      exact ih

theorem Store.get_updateKey_ne (st : Store) (k k2 : String) (f : RVal → RVal)
    (h : k2 ≠ k) : Store.get (Store.updateKey st k f) k2 = Store.get st k2 := by
  induction st with
  | nil => rfl
  | cons p st ih =>
    rw [Store.updateKey_cons]
    by_cases hp : p.1 = k
    · have hp2 : ¬ p.1 = k2 := by rw [hp]; exact fun hh => h hh.symm
      rw [if_pos hp, Store.get_cons, Store.get_cons, if_neg hp2]
      simp only [hp2, if_false]
      exact ih
    · rw [if_neg hp, Store.get_cons, Store.get_cons]
      by_cases hq : p.1 = k2
      · rw [if_pos hq, if_pos hq]
      · rw [if_neg hq, if_neg hq]
        exact ih

theorem Store.get_del_self (st : Store) (k : String) :
    Store.get (Store.del st k) k = none := by
  induction st with
  | nil => rfl
  | cons p st ih =>
    rw [Store.del_cons]
    by_cases h : p.1 = k
    · rw [if_pos h]; exact ih
    · rw [if_neg h, Store.get_cons, if_neg h]; exact ih

theorem Store.get_del_ne (st : Store) (k k2 : String) (h : k2 ≠ k) :
    Store.get (Store.del st k) k2 = Store.get st k2 := by
  induction st with
  | nil => rfl
  | cons p st ih =>
    rw [Store.del_cons]
    by_cases hp : p.1 = k
    · have hp2 : ¬ p.1 = k2 := by rw [hp]; exact fun hh => h hh.symm
      rw [if_pos hp, Store.get_cons, if_neg hp2]
      exact ih
    · rw [if_neg hp, Store.get_cons, Store.get_cons]
      by_cases hq : p.1 = k2
      · rw [if_pos hq, if_pos hq]
      · rw [if_neg hq, if_neg hq]
        exact ih

theorem get_foldl_updateKey_ne (g : String → String) (f : RVal → RVal) :
    ∀ (names : List String) (st : Store) (k : String), (∀ nm ∈ names, g nm ≠ k) →
      Store.get (names.foldl (fun s nm => Store.updateKey s (g nm) f) st) k
        = Store.get st k := by
  intro names
  induction names with
  | nil => intro st k _; rfl
  | cons n rest ih =>
    intro st k h
    simp only [List.foldl_cons]
    rw [ih (Store.updateKey st (g n) f) k (fun nm hnm => h nm (by simp [hnm]))]
    exact Store.get_updateKey_ne st (g n) k f (fun hk => h n (by simp) hk.symm)

theorem get_foldl_updateKey_mem (g : String → String) (f : RVal → RVal) :
    ∀ (names : List String) (st : Store) (nm : String), nm ∈ names →
      names.Pairwise (fun a b => g a ≠ g b) →
      Store.get (names.foldl (fun s n2 => Store.updateKey s (g n2) f) st) (g nm)
        = (Store.get st (g nm)).map f := by
  intro names
  induction names with
  | nil => intro st nm h _; exact absurd h (by simp)
  | cons n rest ih =>
    intro st nm hmem hpw
    rw [List.pairwise_cons] at hpw
    obtain ⟨hhead, htail⟩ := hpw
    simp only [List.foldl_cons]
    rcases List.mem_cons.mp hmem with h1 | h1
    · subst h1
      rw [get_foldl_updateKey_ne g f rest (Store.updateKey st (g nm) f) (g nm)
        (fun r hr => (hhead r hr).symm)]
      exact Store.get_updateKey_self st (g nm) f
    · rw [ih (Store.updateKey st (g n) f) nm h1 htail]
      rw [Store.get_updateKey_ne st (g n) (g nm) f (fun hk => hhead nm h1 hk.symm)]

theorem strAppend_left_cancel {a b c : String} (h : a ++ b = a ++ c) : b = c := by
  have hd := congrArg String.data h
  rw [String.data_append, String.data_append] at hd
  exact String.ext (List.append_cancel_left hd)

theorem stateKey_inj {base s t : String} (h : stateKey base s = stateKey base t) : s = t :=
  strAppend_left_cancel h

theorem stateNames_colon_free : ∀ s ∈ stateNames, ¬ (':' ∈ s.data) := by decide

theorem logsKey_ne_stateKey (base job_id : String) {s : String} (hs : s ∈ stateNames) :
    base ++ ":" ++ job_id ++ ":logs" ≠ stateKey base s := by
  intro h
  have h2 : stateKey base (job_id ++ ":logs") = stateKey base s := by
    rw [← h]
    simp only [stateKey, String.append_assoc]
  have h3 := stateKey_inj h2
  have h4 : ':' ∈ s.data := by
    rw [← h3, String.data_append]
    refine List.mem_append.mpr (Or.inr ?_)
    decide
  exact stateNames_colon_free s hs h4

/-! ### Jobs-map lemmas -/

theorem statesOf_nil (j : String) : statesOf [] j = [] := rfl

theorem statesOf_cons (a : String) (ss : List String) (m : List (String × List String))
    (j : String) :
    statesOf ((a, ss) :: m) j = if a = j then ss else statesOf m j := by
  by_cases h : a = j
  · simp [statesOf, List.find?, h]
  · simp [statesOf, List.find?, show (a == j) = false by simpa using h, h]

theorem statesOf_addState (m : List (String × List String)) (j s j' x : String) :
    x ∈ statesOf (addState m j s) j' ↔ x ∈ statesOf m j' ∨ (j' = j ∧ x = s) := by
  induction m with
  | nil =>
    rw [show addState [] j s = [(j, [s])] from rfl, statesOf_cons]
    by_cases h : j = j'
    · rw [if_pos h]
      simp [statesOf, h.symm]
    · rw [if_neg h]
      constructor
      · intro hx
        exact absurd hx (by simp [statesOf])
      · intro hx
        rcases hx with hx | ⟨h1, _⟩
        · exact absurd hx (by simp [statesOf])
        · exact absurd h1.symm h
  | cons p m ih =>
    obtain ⟨a, ss⟩ := p
    simp only [addState]
    by_cases ha : a = j
    · rw [if_pos (by simpa using ha), statesOf_cons, statesOf_cons]
      by_cases ha2 : a = j'
      · rw [if_pos ha2, if_pos ha2]
        have hjj : j' = j := by rw [← ha2, ha]
        by_cases hmem : s ∈ ss
        · rw [if_pos (by simpa using hmem)]
          constructor
          · intro hx; exact Or.inl hx
          · intro hx
            rcases hx with hx | hx
            · exact hx
            · rw [hx.2]; exact hmem
        · rw [if_neg (by simpa using hmem)]
          simp only [List.mem_append, List.mem_singleton]
          constructor
          · intro hx
            rcases hx with hx | hx
            · exact Or.inl hx
            · exact Or.inr ⟨hjj, hx⟩
          · intro hx
            rcases hx with hx | hx
            · exact Or.inl hx
            · exact Or.inr hx.2
      · rw [if_neg ha2, if_neg ha2]
        have hjj : ¬ j' = j := by
          rw [← ha]
          exact fun hh => ha2 hh.symm
        simp [hjj]
    · rw [if_neg (by simpa using ha), statesOf_cons, statesOf_cons]
      by_cases ha2 : a = j'
      · rw [if_pos ha2, if_pos ha2]
        have hjj : ¬ j' = j := by
          rw [← ha2]
          exact ha
        simp [hjj]
      · rw [if_neg ha2, if_neg ha2]
        exact ih

theorem statesOf_foldl_addState (s : String) :
    ∀ (ids : List String) (m : List (String × List String)) (j' x : String),
      x ∈ statesOf (ids.foldl (fun m2 jid => addState m2 jid s) m) j' ↔
        x ∈ statesOf m j' ∨ (j' ∈ ids ∧ x = s) := by
  intro ids
  induction ids with
  | nil => intro m j' x; simp
  | cons i ids ih =>
    intro m j' x
    simp only [List.foldl_cons]
    rw [ih, statesOf_addState]
    simp only [List.mem_cons]
    constructor
    · intro h
      rcases h with (h | ⟨h1, h2⟩) | ⟨h1, h2⟩
      · exact Or.inl h
      · exact Or.inr ⟨Or.inl h1, h2⟩
      · exact Or.inr ⟨Or.inr h1, h2⟩
    · intro h
      rcases h with h | ⟨(h1 | h1), h2⟩
      · exact Or.inl (Or.inl h)
      · exact Or.inl (Or.inr ⟨h1, h2⟩)
      · exact Or.inr ⟨h1, h2⟩

theorem statesOf_buildAux (st : Store) (base : String) :
    ∀ (names : List String) (m : List (String × List String)) (jid x : String),
      x ∈ statesOf (names.foldl (fun m2 stName =>
            (collectIdsFromKey st (stateKey base stName)).foldl
              (fun m3 j => addState m3 j stName) m2) m) jid ↔
        x ∈ statesOf m jid ∨ (x ∈ names ∧ jid ∈ collectIdsFromKey st (stateKey base x)) := by
  intro names
  induction names with
  | nil => intro m jid x; simp
  | cons n names ih =>
    intro m jid x
    simp only [List.foldl_cons]
    rw [ih, statesOf_foldl_addState]
    simp only [List.mem_cons]
    constructor
    · intro h
      rcases h with (h | ⟨h1, h2⟩) | ⟨h1, h2⟩
      · exact Or.inl h
      · subst h2; exact Or.inr ⟨Or.inl rfl, h1⟩
      · exact Or.inr ⟨Or.inr h1, h2⟩
    · intro h
      rcases h with h | ⟨(h1 | h1), h2⟩
      · exact Or.inl (Or.inl h)
      · subst h1; exact Or.inl (Or.inr ⟨h2, rfl⟩)
      · exact Or.inr ⟨h1, h2⟩

/-- Membership in the merged map is exactly membership in some state
collection: the core correctness fact about `jobs_map` (lines 86-97). -/
theorem statesOf_buildJobsMap (st : Store) (base jid x : String) :
    x ∈ statesOf (buildJobsMap st base) jid ↔
      x ∈ stateNames ∧ jid ∈ collectIdsFromKey st (stateKey base x) := by
  rw [buildJobsMap, statesOf_buildAux]
  simp [statesOf]

theorem pySortBy_length {α : Type} (le : α → α → Bool) (rev : Bool) (l : List α) :
    (pySortBy le rev l).length = l.length := by
  cases rev with
  | false => simp [pySortBy, length_stableSort]
  | true => simp [pySortBy, length_stableSort]

theorem mem_pySortBy {α : Type} {le : α → α → Bool} {rev : Bool} {l : List α} {a : α} :
    a ∈ pySortBy le rev l ↔ a ∈ l := by
  cases rev with
  | false => simp [pySortBy, mem_stableSort]
  | true => simp [pySortBy, mem_stableSort]

theorem pySortByP_length {α : Type} {le : α → α → Option Bool} {rev : Bool}
    {l out : List α} (h : pySortByP le rev l = some out) : out.length = l.length := by
  cases rev with
  | false =>
    simp only [pySortByP, if_false, Bool.false_eq_true] at h
    exact stableSortP_length h
  | true =>
    simp only [pySortByP, if_true, Option.map_eq_some'] at h
    obtain ⟨s, hs, rfl⟩ := h
    rw [List.length_reverse, stableSortP_length hs, List.length_reverse]

theorem mem_pySortByP {α : Type} {le : α → α → Option Bool} {rev : Bool}
    {l out : List α} (h : pySortByP le rev l = some out) {a : α} (ha : a ∈ out) :
    a ∈ l := by
  cases rev with
  | false =>
    simp only [pySortByP, if_false, Bool.false_eq_true] at h
    exact mem_stableSortP h ha
  | true =>
    simp only [pySortByP, if_true, Option.map_eq_some'] at h
    obtain ⟨s, hs, rfl⟩ := h
    exact List.mem_reverse.mp (mem_stableSortP hs (List.mem_reverse.mp ha))

/-! ### Invariants of the merged map entries -/

theorem addState_entry_inv (m : List (String × List String)) (j s : String)
    (hm : ∀ p ∈ m, p.2.Nodup ∧ p.2 ≠ []) :
    ∀ p ∈ addState m j s, p.2.Nodup ∧ p.2 ≠ [] := by
  induction m with
  | nil =>
    intro p hp
    simp only [addState, List.mem_singleton] at hp
    subst hp
    exact ⟨by simp, by simp⟩
  | cons q m ih =>
    obtain ⟨a, ss⟩ := q
    intro p hp
    simp only [addState] at hp
    by_cases ha : a = j
    · rw [if_pos (by simpa using ha)] at hp
      rcases List.mem_cons.mp hp with h1 | h1
      · subst h1
        by_cases hmem : s ∈ ss
        · rw [if_pos (by simpa using hmem)]
          exact hm (a, ss) (by simp)
        · rw [if_neg (by simpa using hmem)]
          refine ⟨?_, by simp⟩
          have hss := (hm (a, ss) (by simp)).1
          simp [List.nodup_append, hss, hmem]
      · exact hm p (by simp [h1])
    · rw [if_neg (by simpa using ha)] at hp
      rcases List.mem_cons.mp hp with h1 | h1
      · subst h1
        exact hm (a, ss) (by simp)
      · exact ih (fun q hq => hm q (by simp [hq])) p h1

theorem foldl_addState_entry_inv (s : String) :
    ∀ (ids : List String) (m : List (String × List String)),
      (∀ p ∈ m, p.2.Nodup ∧ p.2 ≠ []) →
      ∀ p ∈ ids.foldl (fun m2 jid => addState m2 jid s) m, p.2.Nodup ∧ p.2 ≠ [] := by
  intro ids
  induction ids with
  | nil => intro m hm; exact hm
  | cons i ids ih =>
    intro m hm
    simp only [List.foldl_cons]
    exact ih (addState m i s) (addState_entry_inv m i s hm)

theorem buildJobsMap_entry_inv (st : Store) (base : String) :
    ∀ p ∈ buildJobsMap st base, p.2.Nodup ∧ p.2 ≠ [] := by
  rw [buildJobsMap]
  have haux : ∀ (names : List String) (m : List (String × List String)),
      (∀ p ∈ m, p.2.Nodup ∧ p.2 ≠ []) →
      ∀ p ∈ names.foldl (fun m2 stName =>
          (collectIdsFromKey st (stateKey base stName)).foldl
            (fun m3 j => addState m3 j stName) m2) m, p.2.Nodup ∧ p.2 ≠ [] := by
    intro names
    induction names with
    | nil => intro m hm; exact hm
    | cons n names ih =>
      intro m hm
      simp only [List.foldl_cons]
      exact ih _ (foldl_addState_entry_inv n _ m hm)
  exact haux stateNames [] (by simp)

theorem statesOf_eq_of_find {m : List (String × List String)} {jid : String} :
    statesOf m jid = [] ∨ ∃ p ∈ m, p.1 = jid ∧ statesOf m jid = p.2 := by
  match hf : m.find? (fun p => p.1 == jid) with
  | none => exact Or.inl (by simp [statesOf, hf])
  | some p =>
    refine Or.inr ⟨p, List.mem_of_find?_eq_some hf, ?_, by simp [statesOf, hf]⟩
    have := List.find?_some hf
    simpa using this

theorem statesOf_buildJobsMap_nodup (st : Store) (base jid : String) :
    (statesOf (buildJobsMap st base) jid).Nodup := by
  rcases @statesOf_eq_of_find (buildJobsMap st base) jid with h | ⟨p, hp, _, h⟩
  · rw [h]; exact List.nodup_nil
  · rw [h]; exact (buildJobsMap_entry_inv st base p hp).1

theorem statesOf_ne_nil_of_mem_keys {st : Store} {base jid : String}
    (h : jid ∈ (buildJobsMap st base).map (fun p => p.1)) :
    statesOf (buildJobsMap st base) jid ≠ [] := by
  obtain ⟨p, hp, hp1⟩ := List.mem_map.mp h
  have hfind : ((buildJobsMap st base).find? (fun q => q.1 == jid)).isSome := by
    rw [List.find?_isSome]
    exact ⟨p, hp, by simp [hp1]⟩
  match hf : (buildJobsMap st base).find? (fun q => q.1 == jid) with
  | none => rw [hf] at hfind; exact absurd hfind (by simp)
  | some q =>
    have hq : statesOf (buildJobsMap st base) jid = q.2 := by simp [statesOf, hf]
    rw [hq]
    exact (buildJobsMap_entry_inv st base q (List.mem_of_find?_eq_some hf)).2

/-- Ids in the merged universe come from some state collection. -/
theorem mem_keys_buildJobsMap {st : Store} {base jid : String}
    (h : jid ∈ (buildJobsMap st base).map (fun p => p.1)) :
    ∃ s ∈ stateNames, jid ∈ collectIdsFromKey st (stateKey base s) := by
  have hne := statesOf_ne_nil_of_mem_keys h
  match hs : statesOf (buildJobsMap st base) jid with
  | [] => exact absurd hs hne
  | x :: rest =>
    have hx : x ∈ statesOf (buildJobsMap st base) jid := by rw [hs]; simp
    rw [statesOf_buildJobsMap] at hx
    exact ⟨x, hx.1, hx.2⟩

/-! ### Inversion lemmas for the query pipeline -/

theorem filteredIdsE_empty_search (st : Store) (base sf : String) :
    filteredIdsE st base "" sf = some (idsToSearch st base sf) := rfl

theorem filteredIdsE_sub {st : Store} {base se sf : String} {fids : List String}
    (h : filteredIdsE st base se sf = some fids) :
    ∀ x ∈ fids, x ∈ idsToSearch st base sf := by
  by_cases hse : (se == "") = true
  · rw [filteredIdsE, if_pos hse] at h
    intro x hx
    simp only [Option.some.injEq] at h
    rw [h]
    exact hx
  · rw [filteredIdsE, if_neg hse] at h
    simp only [Option.map_eq_some'] at h
    obtain ⟨dr, hdr, hres⟩ := h
    intro x hx
    rw [← hres] at hx
    obtain ⟨p, hp, hpx⟩ := List.mem_filterMap.mp hx
    by_cases hc : (pyIn (pyLower se) (pyLower p.1)
        || pyIn (pyLower se) (pyLower (p.2.getD ""))) = true
    · rw [if_pos hc, Option.some.injEq] at hpx
      rw [← hpx]
      exact (List.of_mem_zip hp).1
    · rw [if_neg hc] at hpx
      exact absurd hpx (by simp)

theorem idsToSearch_sub (st : Store) (base sf : String) :
    ∀ x ∈ idsToSearch st base sf, x ∈ (buildJobsMap st base).map (fun p => p.1) := by
  intro x hx
  by_cases hsf : (sf == "") = true
  · rw [idsToSearch, if_pos hsf] at hx
    exact hx
  · rw [idsToSearch, if_neg hsf] at hx
    exact List.mem_of_mem_filter hx

theorem sortedIdsE_length {st : Store} {base sb : String} {d : Bool} {ids out : List String}
    (h : sortedIdsE st base sb d ids = some out) : out.length = ids.length := by
  by_cases hsb : (sb == "timestamp") = true
  · rw [sortedIdsE, if_pos hsb] at h
    simp only [Option.map_eq_some'] at h
    obtain ⟨ts, hts, hout⟩ := h
    obtain ⟨hlen, _⟩ := optMapM_zip hts
    rw [← hout, List.length_map, pySortBy_length, List.length_map, List.length_zip,
      hlen, Nat.min_self]
  · rw [sortedIdsE, if_neg hsb] at h
    exact pySortByP_length h

theorem sortedIdsE_sub {st : Store} {base sb : String} {d : Bool} {ids out : List String}
    (h : sortedIdsE st base sb d ids = some out) : ∀ x ∈ out, x ∈ ids := by
  by_cases hsb : (sb == "timestamp") = true
  · rw [sortedIdsE, if_pos hsb] at h
    simp only [Option.map_eq_some'] at h
    obtain ⟨ts, hts, hout⟩ := h
    intro x hx
    rw [← hout] at hx
    obtain ⟨p, hp, hpx⟩ := List.mem_map.mp hx
    have hp2 := mem_pySortBy.mp hp
    obtain ⟨q, hq, hqp⟩ := List.mem_map.mp hp2
    have := (List.of_mem_zip hq).1
    rw [← hpx, ← hqp]
    exact this
  · rw [sortedIdsE, if_neg hsb] at h
    intro x hx
    exact mem_pySortByP h hx

theorem hydrateE_mem {o : Oracle} {st : Store} {base : String}
    {jm : List (String × List String)} {page_ids : List String} {jobs : List Job}
    (h : hydrateE o st base jm page_ids = some jobs) :
    ∀ job ∈ jobs, ∃ jid hh, jid ∈ page_ids ∧ hgetallE st (base ++ ":" ++ jid) = some hh ∧
      job = hydrateJob o jm jid hh := by
  simp only [hydrateE, Option.map_eq_some'] at h
  obtain ⟨details, hdet, hres⟩ := h
  intro job hjob
  rw [← hres] at hjob
  obtain ⟨p, hp, hpe⟩ := List.mem_map.mp hjob
  obtain ⟨_, hz⟩ := optMapM_zip hdet
  exact ⟨p.1, p.2, (List.of_mem_zip hp).1, hz p hp, hpe.symm⟩

theorem get_jobs_inv {o : Oracle} {st : Store} {pfx queue : String} {page ps : Int}
    {se sf sb : String} {d : Bool} {jobs : List Job} {tc : Nat}
    {counts : List (String × Nat)}
    (h : get_jobs o true st pfx queue page ps se sf sb d = some (jobs, tc, counts)) :
    ∃ fids sids,
      filteredIdsE st (baseOf pfx queue) se sf = some fids ∧
      sortedIdsE st (baseOf pfx queue) sb d fids = some sids ∧
      tc = fids.length ∧
      counts = rawCounts st (baseOf pfx queue) ∧
      ((pySlice sids ((page - 1) * ps) ((page - 1) * ps + ps) = [] ∧ jobs = []) ∨
        hydrateE o st (baseOf pfx queue) (buildJobsMap st (baseOf pfx queue))
          (pySlice sids ((page - 1) * ps) ((page - 1) * ps + ps)) = some jobs) := by
  simp only [get_jobs, Bool.not_true, Bool.false_eq_true, if_false] at h
  rw [Option.bind_eq_some] at h
  obtain ⟨fids, hfids, h⟩ := h
  rw [Option.bind_eq_some] at h
  obtain ⟨sids, hsids, h⟩ := h
  refine ⟨fids, sids, hfids, hsids, ?_⟩
  by_cases hemp : (pySlice sids ((page - 1) * ps) ((page - 1) * ps + ps)).isEmpty = true
  · rw [if_pos hemp, Option.some.injEq, Prod.mk.injEq, Prod.mk.injEq] at h
    obtain ⟨h1, h2, h3⟩ := h
    refine ⟨h2.symm, h3.symm, Or.inl ⟨List.isEmpty_iff.mp hemp, h1.symm⟩⟩
  · rw [if_neg hemp, Option.map_eq_some'] at h
    obtain ⟨js, hjs, heq⟩ := h
    rw [Prod.mk.injEq, Prod.mk.injEq] at heq
    obtain ⟨h1, h2, h3⟩ := heq
    rw [h1] at hjs
    exact ⟨h2.symm, h3.symm, Or.inr hjs⟩

/-! ### Assorted small helper lemmas -/

theorem filterMap_guard {α : Type} {p : α → Bool} :
    ∀ l : List α, l.filterMap (fun x => if p x then some x else none) = l.filter p := by
  intro l
  induction l with
  | nil => rfl
  | cons x xs ih =>
    cases hp : p x with
    | true => simp [List.filterMap_cons, List.filter_cons, hp, ih]
    | false => simp [List.filterMap_cons, List.filter_cons, hp, ih]

theorem zip_self_map {α β : Type} (g : α → β) :
    ∀ l : List α, l.zip (l.map g) = l.map (fun x => (x, g x)) := by
  intro l
  induction l with
  | nil => rfl
  | cons x xs ih => simp [List.zip_cons_cons, ih]

theorem length_filter_ne_add_count {a : String} :
    ∀ l : List String, (l.filter (fun x => x != a)).length + l.count a = l.length := by
  intro l
  induction l with
  | nil => rfl
  | cons x xs ih =>
    rw [List.filter_cons, List.count_cons]
    by_cases h : x = a
    · subst h
      rw [show (x != x) = false by simp, show (x == x) = true by simp]
      simp only [Bool.false_eq_true, if_false, if_true, List.length_cons]
      omega
    · rw [show (x != a) = true by simpa using h, show (x == a) = false by simpa using h]
      simp only [Bool.false_eq_true, if_false, if_true, List.length_cons]
      omega

theorem collect_eq_nil_of_unsupported {st : Store} {k : String}
    (h1 : typeOf st k ≠ "list") (h2 : typeOf st k ≠ "zset") (h3 : typeOf st k ≠ "set") :
    collectIdsFromKey st k = [] := by
  match hg : Store.get st k with
  | none => simp [collectIdsFromKey, hg]
  | some (.rhash _) => simp [collectIdsFromKey, hg]
  | some (.rstr _) => simp [collectIdsFromKey, hg]
  | some (.rlist _) => exact absurd (by rw [typeOf, hg]) h1
  | some (.rzset _) => exact absurd (by rw [typeOf, hg]) h2
  | some (.rset _) => exact absurd (by rw [typeOf, hg]) h3

/-! ### Claim theorems -/

/-- C10: calling `deleteJob` while no store connection is active is a
silent no-op: the store is untouched, no operation is issued and no error
is raised. -/
theorem C10_delete_disconnected_noop (st : Store) (pfx queue job_id : String) :
    delete_job false st pfx queue job_id = st := rfl

/-- C2: whenever a connected `listJobs` call returns, `perStateCounts` maps
each of the five fixed states to the raw member count of that state's
collection, independent of deduplication, filters and pagination (the value
`rawCounts` does not mention them); every state recorded in the merged job
universe comes from actual membership in that state's collection; and a
state key that is absent or of an unsupported collection type contributes
an empty id list, a zero count and no ids to the merged universe. -/
theorem C2_per_state_counts (o : Oracle) (st : Store) (pfx queue : String)
    (page ps : Int) (se sf sb : String) (d : Bool) (jobs : List Job) (tc : Nat)
    (counts : List (String × Nat))
    (h : get_jobs o true st pfx queue page ps se sf sb d = some (jobs, tc, counts)) :
    counts = rawCounts st (baseOf pfx queue) ∧
    (∀ s jid, s ∈ statesOf (buildJobsMap st (baseOf pfx queue)) jid →
      jid ∈ collectIdsFromKey st (stateKey (baseOf pfx queue) s)) ∧
    (∀ s, typeOf st (stateKey (baseOf pfx queue) s) ≠ "list" →
      typeOf st (stateKey (baseOf pfx queue) s) ≠ "zset" →
      typeOf st (stateKey (baseOf pfx queue) s) ≠ "set" →
      collectIdsFromKey st (stateKey (baseOf pfx queue) s) = [] ∧
      (s ∈ stateNames → (s, 0) ∈ counts) ∧
      (∀ jid, s ∉ statesOf (buildJobsMap st (baseOf pfx queue)) jid)) := by
  obtain ⟨fids, sids, _, _, _, hcounts, _⟩ := get_jobs_inv h
  refine ⟨hcounts, ?_, ?_⟩
  · intro s jid hmem
    exact ((statesOf_buildJobsMap st (baseOf pfx queue) jid s).mp hmem).2
  · intro s h1 h2 h3
    have hnil := collect_eq_nil_of_unsupported h1 h2 h3
    refine ⟨hnil, ?_, ?_⟩
    · intro hs
      rw [hcounts, rawCounts]
      exact List.mem_map.mpr ⟨s, hs, by rw [hnil]; rfl⟩
    · intro jid hmem
      have := ((statesOf_buildJobsMap st (baseOf pfx queue) jid s).mp hmem).2
      rw [hnil] at this
      exact absurd this (by simp)

/-- C2 witness: a store with a wait list, a completed set of an unsupported
type (plain string) and an absent failed key. -/
theorem C2_witness :
    get_jobs oracle0 true
        [("bull:q:wait", RVal.rlist ["1", "1", "2"]), ("bull:q:completed", RVal.rstr "zz")]
        "bull" "q" 1 20 "" "" "id" false
      = some ([⟨"1", "", "wait", "", "-"⟩, ⟨"2", "", "wait", "", "-"⟩], 2,
          [("wait", 3), ("active", 0), ("delayed", 0), ("completed", 0), ("failed", 0)]) ∧
    [("wait", 3), ("active", 0), ("delayed", 0), ("completed", 0), ("failed", 0)]
      = rawCounts [("bull:q:wait", RVal.rlist ["1", "1", "2"]), ("bull:q:completed", RVal.rstr "zz")]
          (baseOf "bull" "q") := by
  constructor
  · decide
  · exact (C2_per_state_counts oracle0
      [("bull:q:wait", RVal.rlist ["1", "1", "2"]), ("bull:q:completed", RVal.rstr "zz")]
      "bull" "q" 1 20 "" "" "id" false
      [⟨"1", "", "wait", "", "-"⟩, ⟨"2", "", "wait", "", "-"⟩] 2
      [("wait", 3), ("active", 0), ("delayed", 0), ("completed", 0), ("failed", 0)]
      (by decide)).1

/-- C1: for every connected `listJobs` call that returns (with `page ≥ 1`,
`pageSize > 0`), `totalCount` equals the number of ids surviving the status
and search filters before pagination, and any page whose slice lies beyond
the filtered sequence returns an empty job sequence together with the same
`totalCount` and counts, not an error. -/
theorem C1_total_count_pagination (o : Oracle) (st : Store) (pfx queue : String)
    (page ps : Int) (se sf sb : String) (d : Bool) (jobs : List Job) (tc : Nat)
    (counts : List (String × Nat))
    (hpage : 1 ≤ page) (hps : 0 < ps)
    (h : get_jobs o true st pfx queue page ps se sf sb d = some (jobs, tc, counts)) :
    (∃ fids, filteredIdsE st (baseOf pfx queue) se sf = some fids ∧ tc = fids.length) ∧
    (∀ page2 : Int, 1 ≤ page2 → (tc : Int) ≤ (page2 - 1) * ps →
      get_jobs o true st pfx queue page2 ps se sf sb d = some ([], tc, counts)) := by
  obtain ⟨fids, sids, hfids, hsids, htc, hcounts, _⟩ := get_jobs_inv h
  refine ⟨⟨fids, hfids, htc⟩, ?_⟩
  intro page2 hp2 hbeyond
  have hlen : sids.length = fids.length := sortedIdsE_length hsids
  have hstart : (0 : Int) ≤ (page2 - 1) * ps := mul_nonneg (by omega) (by omega)
  have hempty : pySlice sids ((page2 - 1) * ps) ((page2 - 1) * ps + ps) = [] := by
    apply pySlice_eq_nil hstart
    rw [hlen, ← htc]
    exact hbeyond
  have hrun : get_jobs o true st pfx queue page2 ps se sf sb d
      = some ([], fids.length, rawCounts st (baseOf pfx queue)) := by
    simp only [get_jobs, Bool.not_true, Bool.false_eq_true, if_false]
    rw [hfids, Option.some_bind, hsids, Option.some_bind, hempty]
    simp
  rw [hrun, htc, hcounts]

/-- C1 witness: with no matching ids every page is beyond the filtered
sequence and returns an empty page with `totalCount` 0. -/
theorem C1_witness :
    ((1 : Int) ≤ 1) ∧ ((0 : Int) < 2) ∧
    ((∃ fids, filteredIdsE [] (baseOf "bull" "q") "" "" = some fids ∧ 0 = fids.length) ∧
      (∀ page2 : Int, 1 ≤ page2 → ((0 : Nat) : Int) ≤ (page2 - 1) * 2 →
        get_jobs oracle0 true [] "bull" "q" page2 2 "" "" "id" false
          = some ([], 0, [("wait", 0), ("active", 0), ("delayed", 0), ("completed", 0),
              ("failed", 0)]))) :=
  ⟨by decide, by decide,
    C1_total_count_pagination oracle0 [] "bull" "q" 1 2 "" "" "id" false [] 0
      [("wait", 0), ("active", 0), ("delayed", 0), ("completed", 0), ("failed", 0)]
      (by decide) (by decide) (by decide)⟩

/-- C3: every job returned by `listJobs` reports as its `state` the
alphabetically sorted, comma-joined union of the state collections its id
was found in; membership in that union is exactly collection membership;
in particular an id in exactly the `completed` and `failed` collections
reports the string `completed,failed`. -/
theorem C3_state_label (o : Oracle) (st : Store) (pfx queue : String)
    (page ps : Int) (se sf sb : String) (d : Bool) (jobs : List Job) (tc : Nat)
    (counts : List (String × Nat))
    (h : get_jobs o true st pfx queue page ps se sf sb d = some (jobs, tc, counts)) :
    ∀ job ∈ jobs,
      job.state = stateString (statesOf (buildJobsMap st (baseOf pfx queue)) job.id) ∧
      (∀ s, s ∈ statesOf (buildJobsMap st (baseOf pfx queue)) job.id ↔
        (s ∈ stateNames ∧ job.id ∈ collectIdsFromKey st (stateKey (baseOf pfx queue) s))) ∧
      (job.id ∈ collectIdsFromKey st (stateKey (baseOf pfx queue) "completed") →
       job.id ∈ collectIdsFromKey st (stateKey (baseOf pfx queue) "failed") →
       job.id ∉ collectIdsFromKey st (stateKey (baseOf pfx queue) "wait") →
       job.id ∉ collectIdsFromKey st (stateKey (baseOf pfx queue) "active") →
       job.id ∉ collectIdsFromKey st (stateKey (baseOf pfx queue) "delayed") →
       job.state = "completed,failed") := by
  intro job hjob
  obtain ⟨fids, sids, hfids, hsids, htc, hcounts, hlast⟩ := get_jobs_inv h
  rcases hlast with ⟨_, hnil⟩ | hhyd
  · rw [hnil] at hjob
    exact absurd hjob (by simp)
  · obtain ⟨jid, hh, hjid_mem, hfetch, hjob_eq⟩ := hydrateE_mem hhyd job hjob
    subst hjob_eq
    refine ⟨rfl, ?_, ?_⟩
    · intro s
      exact statesOf_buildJobsMap st (baseOf pfx queue) jid s
    · intro hc hf hw ha hd2
      have hiff : ∀ x, x ∈ statesOf (buildJobsMap st (baseOf pfx queue)) jid ↔
          x ∈ ["completed", "failed"] := by
        intro x
        constructor
        · intro hx
          have h2 := (statesOf_buildJobsMap st (baseOf pfx queue) jid x).mp hx
          have hsn := h2.1
          simp only [stateNames, List.mem_cons, List.not_mem_nil, or_false] at hsn
          rcases hsn with h5 | h5 | h5 | h5 | h5
          · subst h5; exact absurd h2.2 hw
          · subst h5; exact absurd h2.2 ha
          · subst h5; exact absurd h2.2 hd2
          · subst h5; simp
          · subst h5; simp
        · intro hx
          simp only [List.mem_cons, List.not_mem_nil, or_false] at hx
          rcases hx with h5 | h5
          · subst h5
            exact (statesOf_buildJobsMap st (baseOf pfx queue) jid "completed").mpr
              ⟨by decide, hc⟩
          · subst h5
            exact (statesOf_buildJobsMap st (baseOf pfx queue) jid "failed").mpr
              ⟨by decide, hf⟩
      have hnd := statesOf_buildJobsMap_nodup st (baseOf pfx queue) jid
      have hperm : (statesOf (buildJobsMap st (baseOf pfx queue)) jid).Perm
          ["completed", "failed"] :=
        (List.perm_ext_iff_of_nodup hnd (by decide)).mpr hiff
      have hsorted_eq :
          stableSort pyStrLe (statesOf (buildJobsMap st (baseOf pfx queue)) jid)
            = ["completed", "failed"] := by
        apply eq_of_perm_of_pairwise ((stableSort_perm pyStrLe _).trans hperm)
        · exact stableSort_pairwise pyStrLe_total pyStrLe_trans _
        · decide
        · intro a _ b _ hab hba
          exact pyStrLe_antisymm a b hab hba
      show stateString (statesOf (buildJobsMap st (baseOf pfx queue)) jid)
        = "completed,failed"
      rw [stateString, hsorted_eq]
      rfl

/-- C3 witness: a job present in exactly the completed (list) and failed
(sorted set) collections. -/
theorem C3_witness :
    (⟨"7", "", "completed,failed", "", "-"⟩ : Job).state = "completed,failed" :=
  ((C3_state_label oracle0
      [("bull:q:completed", RVal.rlist ["7"]), ("bull:q:failed", RVal.rzset [("7", 1)])]
      "bull" "q" 1 20 "" "" "id" false
      [⟨"7", "", "completed,failed", "", "-"⟩] 1
      [("wait", 0), ("active", 0), ("delayed", 0), ("completed", 1), ("failed", 1)]
      (by decide) ⟨"7", "", "completed,failed", "", "-"⟩ (by decide)).2.2
    (by decide) (by decide) (by decide) (by decide) (by decide))

/-- C5: the status filter narrows the id universe to ids whose state set
contains the status before search; an empty search term leaves the
status-filtered set unchanged with no data fetch; a non-empty search term
keeps exactly the ids for which the lowercased term is a substring of the
lowercased id or of the lowercased raw `data` field, a missing `data`
field being treated as the empty string. -/
theorem C5_search_filter (st : Store) (base se sf : String)
    (hse : se ≠ "")
    (hfetch : ∀ jid ∈ idsToSearch st base sf,
      (hgetE st (base ++ ":" ++ jid) "data").isSome) :
    filteredIdsE st base "" sf = some (idsToSearch st base sf) ∧
    (∀ jid, jid ∈ idsToSearch st base sf ↔
      (jid ∈ (buildJobsMap st base).map (fun p => p.1) ∧
        (sf ≠ "" → sf ∈ statesOf (buildJobsMap st base) jid))) ∧
    filteredIdsE st base se sf
      = some ((idsToSearch st base sf).filter (fun jid =>
          pyIn (pyLower se) (pyLower jid) ||
          pyIn (pyLower se)
            (pyLower (((hgetE st (base ++ ":" ++ jid) "data").getD none).getD "")))) := by
  refine ⟨filteredIdsE_empty_search st base sf, ?_, ?_⟩
  · intro jid
    by_cases hsf : (sf == "") = true
    · rw [idsToSearch, if_pos hsf]
      have hsf2 : sf = "" := by simpa using hsf
      constructor
      · intro hm
        exact ⟨hm, fun hne => absurd hsf2 hne⟩
      · intro hm
        exact hm.1
    · rw [idsToSearch, if_neg hsf]
      rw [List.mem_filter]
      constructor
      · intro hm
        refine ⟨hm.1, fun _ => ?_⟩
        have := hm.2
        simpa [List.contains, List.elem_iff] using this
      · intro hm
        refine ⟨hm.1, ?_⟩
        have := hm.2 (by simpa using hsf)
        simpa [List.contains, List.elem_iff] using this
  · have hsene : (se == "") = false := by simpa using hse
    rw [filteredIdsE, if_neg (by simp [hsene])]
    have hmap : optMapM (fun jid => hgetE st (base ++ ":" ++ jid) "data")
        (idsToSearch st base sf)
        = some ((idsToSearch st base sf).map
            (fun jid => (hgetE st (base ++ ":" ++ jid) "data").getD none)) := by
      apply optMapM_eq_some_map
      intro x hx
      have hs := hfetch x hx
      match hxg : hgetE st (base ++ ":" ++ x) "data" with
      | some v => rfl
      | none => rw [hxg] at hs; exact absurd hs (by simp)
    rw [hmap]
    rw [Option.map_some']
    rw [zip_self_map]
    rw [List.filterMap_map]
    rw [Option.some.injEq]
    rw [show ((fun p : String × Option String =>
        if pyIn (pyLower se) (pyLower p.1) || pyIn (pyLower se) (pyLower (p.2.getD ""))
        then some p.1 else none) ∘
          (fun jid => (jid, (hgetE st (base ++ ":" ++ jid) "data").getD none)))
      = fun jid => if pyIn (pyLower se) (pyLower jid) ||
          pyIn (pyLower se)
            (pyLower (((hgetE st (base ++ ":" ++ jid) "data").getD none).getD ""))
        then some jid else none from rfl]
    exact filterMap_guard (idsToSearch st base sf)

/-- C5 witness: a search over one matching and one non-matching job. -/
theorem C5_witness :
    ("AB" : String) ≠ "" ∧
    filteredIdsE
        [("q:w:wait", RVal.rlist ["x1", "y2"]),
         ("q:w:x1", RVal.rhash [("data", "zzabz")]),
         ("q:w:y2", RVal.rhash [("name", "n")])]
        "q:w" "AB" ""
      = some ((idsToSearch
          [("q:w:wait", RVal.rlist ["x1", "y2"]),
           ("q:w:x1", RVal.rhash [("data", "zzabz")]),
           ("q:w:y2", RVal.rhash [("name", "n")])] "q:w" "").filter (fun jid =>
            pyIn (pyLower "AB") (pyLower jid) ||
            pyIn (pyLower "AB")
              (pyLower (((hgetE
                  [("q:w:wait", RVal.rlist ["x1", "y2"]),
                   ("q:w:x1", RVal.rhash [("data", "zzabz")]),
                   ("q:w:y2", RVal.rhash [("name", "n")])]
                  ("q:w" ++ ":" ++ jid) "data").getD none).getD "")))) :=
  ⟨by decide,
    (C5_search_filter
      [("q:w:wait", RVal.rlist ["x1", "y2"]),
       ("q:w:x1", RVal.rhash [("data", "zzabz")]),
       ("q:w:y2", RVal.rhash [("name", "n")])]
      "q:w" "AB" "" (by decide) (by decide)).2.2⟩

/-- C9: hydration never fails on malformed content: every returned job's
`data_preview` is the compact re-serialization truncated to 140 characters
when the payload parses, else the first 140 characters of the raw text
(empty payload giving an empty preview); its `timestamp` is the formatted
date-time of the parsed integer, the raw string when the value does not
parse as an integer, and `-` when the field is empty or absent; and the
hydration step succeeds whenever the page's hash fetches succeed,
regardless of field contents. -/
theorem C9_hydration (o : Oracle) (st : Store) (pfx queue : String)
    (page ps : Int) (se sf sb : String) (d : Bool) (jobs : List Job) (tc : Nat)
    (counts : List (String × Nat))
    (h : get_jobs o true st pfx queue page ps se sf sb d = some (jobs, tc, counts)) :
    (∀ job ∈ jobs, ∃ hh,
      hgetallE st (baseOf pfx queue ++ ":" ++ job.id) = some hh ∧
      job.data_preview = (if hashGetD hh "data" "" == "" then ""
        else if o.jsonOk (hashGetD hh "data" "")
          then strTake (o.jsonCompact (hashGetD hh "data" "")) 140
          else strTake (hashGetD hh "data" "") 140) ∧
      job.timestamp = (if hashGetD hh "timestamp" "" == "" then "-"
        else match pyStrToInt (hashGetD hh "timestamp" "") with
             | some n => o.formatTs n
             | none => hashGetD hh "timestamp" "")) ∧
    (∀ (jm : List (String × List String)) (pids : List String),
      (∀ jid ∈ pids, (hgetallE st (baseOf pfx queue ++ ":" ++ jid)).isSome) →
      (hydrateE o st (baseOf pfx queue) jm pids).isSome) := by
  constructor
  · intro job hjob
    obtain ⟨fids, sids, hfids, hsids, htc, hcounts, hlast⟩ := get_jobs_inv h
    rcases hlast with ⟨_, hnil⟩ | hhyd
    · rw [hnil] at hjob
      exact absurd hjob (by simp)
    · obtain ⟨jid, hh, hjid_mem, hfetch, hjob_eq⟩ := hydrateE_mem hhyd job hjob
      subst hjob_eq
      exact ⟨hh, hfetch, rfl, rfl⟩
  · intro jm pids hok
    have hmap : optMapM (fun jid => hgetallE st (baseOf pfx queue ++ ":" ++ jid)) pids
        = some (pids.map
            (fun jid => (hgetallE st (baseOf pfx queue ++ ":" ++ jid)).getD [])) := by
      apply optMapM_eq_some_map
      intro x hx
      have hs := hok x hx
      match hxg : hgetallE st (baseOf pfx queue ++ ":" ++ x) with
      | some v => rfl
      | none => rw [hxg] at hs; exact absurd hs (by simp)
    rw [hydrateE, hmap]
    rfl

/-- C9 witness: a job whose payload is not structured data and whose
timestamp does not parse as an integer. -/
theorem C9_witness :
    ∃ hh, hgetallE
        [("b:q:wait", RVal.rlist ["j"]),
         ("b:q:j", RVal.rhash [("data", "raw!"), ("timestamp", "later")])]
        (baseOf "b" "q" ++ ":" ++ ("j" : String)) = some hh ∧
      ("raw!" : String) = (if hashGetD hh "data" "" == "" then ""
        else if oracle0.jsonOk (hashGetD hh "data" "")
          then strTake (oracle0.jsonCompact (hashGetD hh "data" "")) 140
          else strTake (hashGetD hh "data" "") 140) ∧
      ("later" : String) = (if hashGetD hh "timestamp" "" == "" then "-"
        else match pyStrToInt (hashGetD hh "timestamp" "") with
             | some n => oracle0.formatTs n
             | none => hashGetD hh "timestamp" "") :=
  (C9_hydration oracle0
    [("b:q:wait", RVal.rlist ["j"]),
     ("b:q:j", RVal.rhash [("data", "raw!"), ("timestamp", "later")])]
    "b" "q" 1 20 "" "" "id" false
    [⟨"j", "", "wait", "raw!", "later"⟩] 1
    [("wait", 1), ("active", 0), ("delayed", 0), ("completed", 0), ("failed", 0)]
    (by decide)).1 ⟨"j", "", "wait", "raw!", "later"⟩ (by decide)

/-- C4 (amended): with any `sortBy` other than `timestamp`, the id sort
succeeds exactly on homogeneous filtered sets — an all-digits set is
ordered numerically, a no-digits set lexicographically — while a set
mixing an all-digits id with a non-digits id makes the comparison raise,
so the call fails rather than returning. -/
theorem C4_id_sort (st : Store) (base sort_by : String) (descending : Bool)
    (ids : List String) (hsb : sort_by ≠ "timestamp") :
    ((∀ x ∈ ids, pyIsdigit x = true) →
      sortedIdsE st base sort_by descending ids
        = some (pySortBy (fun a b => decide (digitsToNat a.data ≤ digitsToNat b.data))
            descending ids)) ∧
    ((∀ x ∈ ids, pyIsdigit x = false) →
      sortedIdsE st base sort_by descending ids
        = some (pySortBy pyStrLe descending ids)) ∧
    (∀ a ∈ ids, ∀ b ∈ ids, pyIsdigit a = true → pyIsdigit b = false →
      sortedIdsE st base sort_by descending ids = none) := by
  have hsbne : (sort_by == "timestamp") = false := by simpa using hsb
  refine ⟨?_, ?_, ?_⟩
  · intro hall
    rw [sortedIdsE, if_neg (by simp [hsbne])]
    apply pySortByP_eq_some
    intro x hx y hy
    rw [idSortKey, if_pos (hall x hx), idSortKey, if_pos (hall y hy), pyKeyLe]
    rw [decide_eq_decide.mpr (Int.ofNat_le)]
  · intro hall
    rw [sortedIdsE, if_neg (by simp [hsbne])]
    apply pySortByP_eq_some
    intro x hx y hy
    rw [idSortKey, if_neg (by simp [hall x hx]), idSortKey, if_neg (by simp [hall y hy]),
      pyKeyLe]
  · intro a ha b hb hda hdb
    rw [sortedIdsE, if_neg (by simp [hsbne])]
    apply pySortByP_none_of_mixed ?_ descending ha hb hda hdb
    intro x y hxy
    cases hx : pyIsdigit x with
    | true =>
      cases hy : pyIsdigit y with
      | true => rw [hx, hy] at hxy; exact absurd rfl hxy
      | false =>
        rw [idSortKey, if_pos hx, idSortKey, if_neg (by simp [hy])]
        rfl
    | false =>
      cases hy : pyIsdigit y with
      | true =>
        rw [idSortKey, if_neg (by simp [hx]), idSortKey, if_pos hy]
        rfl
      | false => rw [hx, hy] at hxy; exact absurd rfl hxy

/-- C4 counterexample: with one all-digits id and one non-digits id in the
queue, `listJobs` with `sortBy = id` raises a `TypeError` instead of
returning a result. -/
theorem C4_counterexample :
    get_jobs oracle0 true [("bull:q:wait", RVal.rlist ["1", "a"])] "bull" "q"
      1 20 "" "" "id" false = none := by decide

/-- C4 witness: on an all-digits id set the sort succeeds and orders the
ids numerically. -/
theorem C4_witness :
    ("id" : String) ≠ "timestamp" ∧
    sortedIdsE [] "b" "id" false ["10", "9"]
      = some (pySortBy (fun a b => decide (digitsToNat a.data ≤ digitsToNat b.data))
          false ["10", "9"]) :=
  ⟨by decide,
    (C4_id_sort [] "b" "id" false ["10", "9"] (by decide)).1 (by decide)⟩

/-- C8: `getJobDetail` never raises for a missing job: when the job's hash
key is absent it returns the given id, empty name, empty `data_raw`, a
state re-derived by probing each of the five state collections (the empty
string when the id is in none of them), and `data_json` follows the
pretty-print-or-unchanged rule for every job of any store. -/
theorem C8_detail_missing (o : Oracle) (st st2 : Store) (pfx queue job_id : String)
    (hmiss : Store.get st (baseOf pfx queue ++ ":" ++ job_id) = none)
    (hjs : o.jsonOk "" = false) :
    get_job_detail o true st pfx queue job_id
      = some [("id", job_id), ("name", ""),
          ("state", joinComma (stableSort pyStrLe (stateNames.filter
            (fun s => memberProbe st (stateKey (baseOf pfx queue) s) job_id)))),
          ("data_raw", ""), ("data_json", "")] ∧
    ((∀ s ∈ stateNames, memberProbe st (stateKey (baseOf pfx queue) s) job_id = false) →
      get_job_detail o true st pfx queue job_id
        = some [("id", job_id), ("name", ""), ("state", ""), ("data_raw", ""),
            ("data_json", "")]) ∧
    (∀ d2, get_job_detail o true st2 pfx queue job_id = some d2 →
      ∃ raw, ("data_raw", raw) ∈ d2 ∧
        ("data_json", if o.jsonOk raw then o.jsonPretty raw else raw) ∈ d2) := by
  have hg : hgetallE st (baseOf pfx queue ++ ":" ++ job_id) = some [] := by
    simp [hgetallE, hmiss]
  have h1 : get_job_detail o true st pfx queue job_id
      = some [("id", job_id), ("name", ""),
          ("state", joinComma (stableSort pyStrLe (stateNames.filter
            (fun s => memberProbe st (stateKey (baseOf pfx queue) s) job_id)))),
          ("data_raw", ""), ("data_json", "")] := by
    simp only [get_job_detail, Bool.not_true, Bool.false_eq_true, if_false, hg,
      Option.map_some']
    rfl
  refine ⟨h1, ?_, ?_⟩
  · intro hall
    have hfil : stateNames.filter
        (fun s => memberProbe st (stateKey (baseOf pfx queue) s) job_id) = [] := by
      rw [List.filter_eq_nil_iff]
      intro s hs
      rw [hall s hs]
      simp
    rw [h1, hfil]
    rfl
  · intro d2 hd2
    simp only [get_job_detail, Bool.not_true, Bool.false_eq_true, if_false,
      Option.map_eq_some'] at hd2
    obtain ⟨hh, hget, heq⟩ := hd2
    refine ⟨hashGetD hh "data" "", ?_, ?_⟩
    · rw [← heq]
      simp
    · have hval : (if hashGetD hh "data" "" == "" then hashGetD hh "data" ""
          else if o.jsonOk (hashGetD hh "data" "") then o.jsonPretty (hashGetD hh "data" "")
          else hashGetD hh "data" "")
          = (if o.jsonOk (hashGetD hh "data" "") then o.jsonPretty (hashGetD hh "data" "")
            else hashGetD hh "data" "") := by
        by_cases hr : (hashGetD hh "data" "" == "") = true
        · have hre : hashGetD hh "data" "" = "" := by simpa using hr
          rw [if_pos hr, hre, hjs]
          simp
        · rw [if_neg hr]
      have hmem : ("data_json",
          if hashGetD hh "data" "" == "" then hashGetD hh "data" ""
          else if o.jsonOk (hashGetD hh "data" "") then o.jsonPretty (hashGetD hh "data" "")
          else hashGetD hh "data" "") ∈ d2 := by
        rw [← heq]
        refine List.mem_cons.mpr (Or.inr ?_)
        refine List.mem_cons.mpr (Or.inr ?_)
        refine List.mem_cons.mpr (Or.inr ?_)
        refine List.mem_cons.mpr (Or.inr ?_)
        exact List.mem_cons.mpr (Or.inl rfl)
      exact hval ▸ hmem

/-- C8 witness: detail of a job absent from the hash records but present in
the failed collection. -/
theorem C8_witness :
    get_job_detail oracle0 true [("p:q:failed", RVal.rlist ["5"])] "p" "q" "5"
      = some [("id", "5"), ("name", ""),
          ("state", joinComma (stableSort pyStrLe (stateNames.filter
            (fun s => memberProbe [("p:q:failed", RVal.rlist ["5"])]
              (stateKey (baseOf "p" "q") s) "5")))),
          ("data_raw", ""), ("data_json", "")] :=
  (C8_detail_missing oracle0 [("p:q:failed", RVal.rlist ["5"])] [] "p" "q" "5"
    (by decide) (by decide)).1

/-- C6 (amended): `deleteJob` removes the id from each of the five state
collections with the removal operation matching the probed type, deletes
the job's hash key and its `:logs` key, raises no error when the id is
absent (the operation is total), and afterwards no `listJobs` result
reports the id in any state; each state collection keeps exactly its other
members, so its count decreases by the number of occurrences of the id in
it — one for set and sorted-set membership and for duplicate-free lists,
but more when a list holds the id several times (`lrem` with count 0
removes every occurrence). -/
theorem C6_delete_job (st : Store) (pfx queue job_id : String)
    (hjs : job_id ∉ stateNames) :
    (∀ s ∈ stateNames,
      collectIdsFromKey (delete_job true st pfx queue job_id)
          (stateKey (baseOf pfx queue) s)
        = (collectIdsFromKey st (stateKey (baseOf pfx queue) s)).filter
            (fun x => x != job_id)) ∧
    Store.get (delete_job true st pfx queue job_id)
      (baseOf pfx queue ++ ":" ++ job_id) = none ∧
    Store.get (delete_job true st pfx queue job_id)
      (baseOf pfx queue ++ ":" ++ job_id ++ ":logs") = none ∧
    (∀ s ∈ stateNames,
      (collectIdsFromKey (delete_job true st pfx queue job_id)
          (stateKey (baseOf pfx queue) s)).length
        = (collectIdsFromKey st (stateKey (baseOf pfx queue) s)).length
          - (collectIdsFromKey st (stateKey (baseOf pfx queue) s)).count job_id) ∧
    (∀ jid2, jid2 ∈ (buildJobsMap (delete_job true st pfx queue job_id)
        (baseOf pfx queue)).map (fun p => p.1) → jid2 ≠ job_id) ∧
    (∀ (o : Oracle) (page ps : Int) (se sf sb : String) (d : Bool)
        (jobs : List Job) (tc : Nat) (counts : List (String × Nat)),
      get_jobs o true (delete_job true st pfx queue job_id) pfx queue page ps se sf sb d
        = some (jobs, tc, counts) → ∀ job ∈ jobs, job.id ≠ job_id) := by
  have hst' : delete_job true st pfx queue job_id
      = Store.del (Store.del
          (stateNames.foldl (fun s stName =>
            Store.updateKey s (stateKey (baseOf pfx queue) stName)
              (fun v => removeMember v job_id)) st)
          (baseOf pfx queue ++ ":" ++ job_id))
          (baseOf pfx queue ++ ":" ++ job_id ++ ":logs") := rfl
  have hpw : stateNames.Pairwise (fun a b =>
      stateKey (baseOf pfx queue) a ≠ stateKey (baseOf pfx queue) b) := by
    have hnd : stateNames.Pairwise (fun a b => a ≠ b) := by decide
    exact hnd.imp (fun hne hkey => hne (stateKey_inj hkey))
  have hget' : ∀ s ∈ stateNames,
      Store.get (delete_job true st pfx queue job_id) (stateKey (baseOf pfx queue) s)
        = (Store.get st (stateKey (baseOf pfx queue) s)).map
            (fun v => removeMember v job_id) := by
    intro s hs
    have hne_logs : stateKey (baseOf pfx queue) s
        ≠ baseOf pfx queue ++ ":" ++ job_id ++ ":logs" :=
      (logsKey_ne_stateKey (baseOf pfx queue) job_id hs).symm
    have hne_job : stateKey (baseOf pfx queue) s ≠ baseOf pfx queue ++ ":" ++ job_id := by
      intro hh
      have : s = job_id := stateKey_inj hh
      rw [this] at hs
      exact hjs hs
    rw [hst', Store.get_del_ne _ _ _ hne_logs, Store.get_del_ne _ _ _ hne_job]
    exact get_foldl_updateKey_mem (fun n => stateKey (baseOf pfx queue) n)
      (fun v => removeMember v job_id) stateNames st s hs hpw
  have hcol : ∀ s ∈ stateNames,
      collectIdsFromKey (delete_job true st pfx queue job_id)
          (stateKey (baseOf pfx queue) s)
        = (collectIdsFromKey st (stateKey (baseOf pfx queue) s)).filter
            (fun x => x != job_id) := by
    intro s hs
    have hg := hget' s hs
    match hv : Store.get st (stateKey (baseOf pfx queue) s) with
    | none =>
      rw [hv] at hg
      simp only [Option.map_none'] at hg
      rw [collectIdsFromKey, hg, collectIdsFromKey, hv]
      rfl
    | some (.rlist xs) =>
      rw [hv] at hg
      simp only [Option.map_some'] at hg
      rw [collectIdsFromKey, hg, collectIdsFromKey, hv]
      rfl
    | some (.rzset xs) =>
      rw [hv] at hg
      simp only [Option.map_some'] at hg
      rw [collectIdsFromKey, hg, collectIdsFromKey, hv]
      show (xs.filter (fun p => p.1 != job_id)).map (fun p => p.1)
        = (xs.map (fun p => p.1)).filter (fun x => x != job_id)
      rw [List.filter_map]
      rfl
    | some (.rset xs) =>
      rw [hv] at hg
      simp only [Option.map_some'] at hg
      rw [collectIdsFromKey, hg, collectIdsFromKey, hv]
      rfl
    | some (.rhash fs) =>
      rw [hv] at hg
      simp only [Option.map_some'] at hg
      rw [collectIdsFromKey, hg, collectIdsFromKey, hv]
      rfl
    | some (.rstr v) =>
      rw [hv] at hg
      simp only [Option.map_some'] at hg
      rw [collectIdsFromKey, hg, collectIdsFromKey, hv]
      rfl
  have hkeys : ∀ jid2, jid2 ∈ (buildJobsMap (delete_job true st pfx queue job_id)
      (baseOf pfx queue)).map (fun p => p.1) → jid2 ≠ job_id := by
    intro jid2 hmem
    obtain ⟨s, hs, hins⟩ := mem_keys_buildJobsMap hmem
    rw [hcol s hs] at hins
    have := (List.mem_filter.mp hins).2
    simpa using this
  refine ⟨hcol, ?_, ?_, ?_, hkeys, ?_⟩
  · have hne : (baseOf pfx queue ++ ":" ++ job_id)
        ≠ baseOf pfx queue ++ ":" ++ job_id ++ ":logs" := by
      intro hh
      have := congrArg (fun s : String => s.data.length) hh
      simp only [String.data_append] at this
      simp at this
    rw [hst', Store.get_del_ne _ _ _ hne]
    exact Store.get_del_self _ _
  · rw [hst']
    exact Store.get_del_self _ _
  · intro s hs
    rw [hcol s hs]
    have := @length_filter_ne_add_count job_id
      (collectIdsFromKey st (stateKey (baseOf pfx queue) s))
    omega
  · intro o page ps se sf sb d jobs tc counts h job hjob
    obtain ⟨fids, sids, hfids, hsids, htc, hcounts, hlast⟩ := get_jobs_inv h
    rcases hlast with ⟨_, hnil⟩ | hhyd
    · rw [hnil] at hjob
      exact absurd hjob (by simp)
    · obtain ⟨jid, hh, hjid_mem, hfetch, hjob_eq⟩ := hydrateE_mem hhyd job hjob
      subst hjob_eq
      show jid ≠ job_id
      apply hkeys
      apply idsToSearch_sub
      apply filteredIdsE_sub hfids
      apply sortedIdsE_sub hsids
      exact mem_pySlice hjid_mem

/-- C6 counterexample: a wait list holding the same id twice; deleting the
id drops the wait count from 2 to 0, not by one. -/
theorem C6_counterexample :
    (collectIdsFromKey [("bull:q:wait", RVal.rlist ["1", "1"])]
        (stateKey (baseOf "bull" "q") "wait")).length = 2 ∧
    (collectIdsFromKey
        (delete_job true [("bull:q:wait", RVal.rlist ["1", "1"])] "bull" "q" "1")
        (stateKey (baseOf "bull" "q") "wait")).length = 0 := by decide

/-- C6 witness: deleting an id found in the wait list and the completed
sorted set removes it from both and deletes its hash and logs keys. -/
theorem C6_witness :
    (("x7" : String) ∉ stateNames) ∧
    collectIdsFromKey
        (delete_job true
          [("bull:q:wait", RVal.rlist ["x7", "2"]),
           ("bull:q:completed", RVal.rzset [("x7", 5)]),
           ("bull:q:x7", RVal.rhash [("name", "n")]),
           ("bull:q:x7:logs", RVal.rstr "log")] "bull" "q" "x7")
        (stateKey (baseOf "bull" "q") "wait")
      = (collectIdsFromKey
          [("bull:q:wait", RVal.rlist ["x7", "2"]),
           ("bull:q:completed", RVal.rzset [("x7", 5)]),
           ("bull:q:x7", RVal.rhash [("name", "n")]),
           ("bull:q:x7:logs", RVal.rstr "log")]
          (stateKey (baseOf "bull" "q") "wait")).filter (fun x => x != "x7") :=
  ⟨by decide,
    (C6_delete_job
      [("bull:q:wait", RVal.rlist ["x7", "2"]),
       ("bull:q:completed", RVal.rzset [("x7", 5)]),
       ("bull:q:x7", RVal.rhash [("name", "n")]),
       ("bull:q:x7:logs", RVal.rstr "log")] "bull" "q" "x7" (by decide)).1
      "wait" (by decide)⟩

theorem pySortBy_key_reversal {α : Type} (g : α → Int) (l : List α)
    (hinj : ∀ a ∈ l, ∀ b ∈ l, g a = g b → a = b) :
    pySortBy (fun a b => decide (g a ≤ g b)) true l
      = (pySortBy (fun a b => decide (g a ≤ g b)) false l).reverse ∧
    (pySortBy (fun a b => decide (g a ≤ g b)) false l).Perm l ∧
    (pySortBy (fun a b => decide (g a ≤ g b)) false l).Pairwise
      (fun a b => g a ≤ g b) := by
  have htot : ∀ a b : α, decide (g a ≤ g b) = true ∨ decide (g b ≤ g a) = true := by
    intro a b
    rcases le_total (g a) (g b) with h | h
    · exact Or.inl (by simpa using h)
    · exact Or.inr (by simpa using h)
  have htrans : ∀ a b c : α, decide (g a ≤ g b) = true → decide (g b ≤ g c) = true →
      decide (g a ≤ g c) = true := by
    intro a b c hab hbc
    simp only [decide_eq_true_eq] at hab hbc ⊢
    exact le_trans hab hbc
  have heq : stableSort (fun a b => decide (g a ≤ g b)) l.reverse
      = stableSort (fun a b => decide (g a ≤ g b)) l := by
    apply eq_of_perm_of_pairwise
    · exact (stableSort_perm _ _).trans ((List.reverse_perm l).trans
        (stableSort_perm (fun a b => decide (g a ≤ g b)) l).symm)
    · exact stableSort_pairwise htot htrans _
    · exact stableSort_pairwise htot htrans _
    · intro a ha b hb hab hba
      have ha2 : a ∈ l := List.mem_reverse.mp (mem_stableSort.mp ha)
      have hb2 : b ∈ l := List.mem_reverse.mp (mem_stableSort.mp hb)
      simp only [decide_eq_true_eq] at hab hba
      exact hinj a ha2 b hb2 (le_antisymm hab hba)
  refine ⟨?_, ?_, ?_⟩
  · simp only [pySortBy, if_true, if_false, Bool.false_eq_true]
    rw [heq]
  · simp only [pySortBy, if_false, Bool.false_eq_true]
    exact stableSort_perm _ l
  · simp only [pySortBy, if_false, Bool.false_eq_true]
    exact (stableSort_pairwise htot htrans l).imp (fun hab => by simpa using hab)

/-- C7: with `sortBy = timestamp` and all timestamp fetches succeeding,
`listJobs` orders the filtered ids by the integer value of each id's
`timestamp` hash field (malformed or absent values counting as 0); the
ascending result is a permutation of the filtered set sorted by that
integer, and descending versus ascending on the same filtered set are
exactly reversed orderings whenever no two ids share a timestamp value. -/
theorem C7_timestamp_sort (st : Store) (base : String) (ids : List String)
    (hok : ∀ jid ∈ ids, (hgetE st (base ++ ":" ++ jid) "timestamp").isSome)
    (hinj : ∀ a ∈ ids, ∀ b ∈ ids,
      tsParse ((hgetE st (base ++ ":" ++ a) "timestamp").getD none)
        = tsParse ((hgetE st (base ++ ":" ++ b) "timestamp").getD none) → a = b) :
    ∃ asc, sortedIdsE st base "timestamp" false ids = some asc ∧
      sortedIdsE st base "timestamp" true ids = some asc.reverse ∧
      asc.Perm ids ∧
      asc.Pairwise (fun a b =>
        tsParse ((hgetE st (base ++ ":" ++ a) "timestamp").getD none)
          ≤ tsParse ((hgetE st (base ++ ":" ++ b) "timestamp").getD none)) := by
  have hsort : ∀ d : Bool, sortedIdsE st base "timestamp" d ids
      = some (pySortBy (fun a b =>
          decide (tsParse ((hgetE st (base ++ ":" ++ a) "timestamp").getD none)
            ≤ tsParse ((hgetE st (base ++ ":" ++ b) "timestamp").getD none))) d ids) := by
    intro d
    have hmap : optMapM (fun jid => hgetE st (base ++ ":" ++ jid) "timestamp") ids
        = some (ids.map
            (fun jid => (hgetE st (base ++ ":" ++ jid) "timestamp").getD none)) := by
      apply optMapM_eq_some_map
      intro x hx
      have hs := hok x hx
      match hxg : hgetE st (base ++ ":" ++ x) "timestamp" with
      | some v => rfl
      | none => rw [hxg] at hs; exact absurd hs (by simp)
    rw [sortedIdsE, if_pos (by decide), hmap, Option.map_some', Option.some.injEq]
    rw [zip_self_map, List.map_map]
    exact pySortBy_pair (fun a b => decide (a ≤ b))
      (fun jid => tsParse ((hgetE st (base ++ ":" ++ jid) "timestamp").getD none)) d ids
  obtain ⟨hrev, hperm, hpair⟩ := pySortBy_key_reversal
    (fun jid => tsParse ((hgetE st (base ++ ":" ++ jid) "timestamp").getD none)) ids hinj
  refine ⟨pySortBy (fun a b =>
      decide (tsParse ((hgetE st (base ++ ":" ++ a) "timestamp").getD none)
        ≤ tsParse ((hgetE st (base ++ ":" ++ b) "timestamp").getD none))) false ids,
    hsort false, ?_, hperm, hpair⟩
  rw [hsort true, hrev]

/-- C7 witness: two jobs with distinct timestamps, one of them malformed
and counting as 0. -/
theorem C7_witness :
    ∃ asc, sortedIdsE
        [("b:q:1", RVal.rhash [("timestamp", "50")]),
         ("b:q:2", RVal.rhash [("timestamp", "oops")])]
        "b:q" "timestamp" false ["1", "2"] = some asc ∧
      sortedIdsE
        [("b:q:1", RVal.rhash [("timestamp", "50")]),
         ("b:q:2", RVal.rhash [("timestamp", "oops")])]
        "b:q" "timestamp" true ["1", "2"] = some asc.reverse ∧
      asc.Perm ["1", "2"] ∧
      asc.Pairwise (fun a b =>
        tsParse ((hgetE
            [("b:q:1", RVal.rhash [("timestamp", "50")]),
             ("b:q:2", RVal.rhash [("timestamp", "oops")])]
            ("b:q" ++ ":" ++ a) "timestamp").getD none)
          ≤ tsParse ((hgetE
            [("b:q:1", RVal.rhash [("timestamp", "50")]),
             ("b:q:2", RVal.rhash [("timestamp", "oops")])]
            ("b:q" ++ ":" ++ b) "timestamp").getD none)) :=
  C7_timestamp_sort
    [("b:q:1", RVal.rhash [("timestamp", "50")]),
     ("b:q:2", RVal.rhash [("timestamp", "oops")])]
    "b:q" ["1", "2"] (by decide) (by decide)
